import Mathlib

/-!
Verification of the quorum-based id-allocation simulator (`src/main.rs`).

The Rust program is shallowly embedded below:

* `Server.propose`, `Client.generate_requests`, `Client.receive` and
  `Computer.receive` are direct translations of the corresponding Rust
  functions.  Machine integers (`u64`, `usize`) are modelled as `Nat`:
  the only arithmetic the program performs is `last_id + 1` and
  comparisons, far from any overflow.
* The `assert!`/`assert_eq!`/`unreachable!` panic paths are modelled by
  returning `none` (`Option`).
* `Uuid::new_v4()` — per the specification an external collaborator
  supplying globally unique correlation tokens — is modelled by a global
  counter threaded through the system state (`Sys.ctr`): each step may
  consume at most one fresh token, and the counter advances every step,
  so tokens are globally unique and strictly increasing.
* `thread_rng` shuffling is modelled by allowing an arbitrary
  permutation of the queue in the step relation; the Bernoulli loss
  trial is an arbitrary list of booleans handed to `deliver_outbound`.
* The `Client` state carries one ghost field `resp_from` (not present in
  the Rust struct): the sender of each tallied response, kept parallel
  to `current_responses`.  It is write-only instrumentation used to
  state which *distinct servers* contributed to a tally.
-/

namespace IdGen

def N_SERVERS : Nat := 10
def N_CLIENTS : Nat := 15

/-- the two-variant protocol payload -/
inductive Message
  | Request (uuid : Nat) (id : Nat)
  | Response (success : Bool) (uuid : Nat) (id : Nat)
deriving DecidableEq, Repr

/-- server state: `highest_accepted_id` (`max_id` in the source) -/
structure Server where
  max_id : Nat
deriving DecidableEq, Repr

/-- `Server::propose`: strict-increase acceptance rule.  Accept and raise
`max_id` iff `id > max_id`, else reject carrying the current ceiling. -/
def Server.propose (self : Server) (sender : Nat) (uuid : Nat) (id : Nat) :
    Server × List (Nat × Message) :=
  if id > self.max_id then
    ({ max_id := id }, [(sender, Message.Response true uuid id)])
  else
    (self, [(sender, Message.Response false uuid self.max_id)])

/-- one entry of a client's tally, `Result<Id, Id>` in the source -/
inductive TallyEntry
  | ok (id : Nat)
  | err (id : Nat)
deriving DecidableEq, Repr

def TallyEntry.isOk : TallyEntry → Bool
  | .ok _ => true
  | .err _ => false

def TallyEntry.isErr : TallyEntry → Bool
  | .ok _ => false
  | .err _ => true

/-- `r.is_ok()` count of the tally -/
def okCount (rs : List TallyEntry) : Nat := rs.countP fun r => r.isOk

/-- `r.is_err()` count of the tally -/
def errCount (rs : List TallyEntry) : Nat := rs.countP fun r => r.isErr

/-- client state.  `resp_from` is ghost instrumentation (see module
docstring); all other fields are the source's. -/
structure Client where
  last_id : Nat
  current_uuid : Nat
  current_responses : List TallyEntry
  resp_from : List Nat
deriving DecidableEq, Repr

/-- `Client::generate_requests`: pick the fresh token, clear the tally,
and emit one request per server proposing `last_id + 1`. -/
def Client.generate_requests (self : Client) (new_uuid : Nat) :
    Client × List (Nat × Message) :=
  ({ self with current_uuid := new_uuid, current_responses := [], resp_from := [] },
   (List.range N_SERVERS).map fun i => (i, Message.Request new_uuid (self.last_id + 1)))

/-- `Client::receive`.  `fresh` is the token `Uuid::new_v4()` would
produce if called during this invocation (it is called at most once:
either on quorum success or inside `generate_requests` on quorum
failure).  The two `assert!` panics are the `none` results. -/
def Client.receive (self : Client) (sender : Nat) (success : Bool) (uuid : Nat)
    (id : Nat) (fresh : Nat) : Option (Client × List (Nat × Message)) :=
  if uuid ≠ self.current_uuid then
    some (self, [])
  else if success then
    if id = self.last_id + 1 then
      let rs := self.current_responses ++ [TallyEntry.ok id]
      let fr := self.resp_from ++ [sender]
      if okCount rs > N_SERVERS / 2 then
        if self.last_id < id then
          -- SUCCESS; ID = id
          some ({ last_id := id, current_uuid := fresh, current_responses := rs,
                  resp_from := fr }, [])
        else none
      else
        some ({ self with current_responses := rs, resp_from := fr }, [])
    else none
  else
    let rs := self.current_responses ++ [TallyEntry.err id]
    let fr := self.resp_from ++ [sender]
    if errCount rs > N_SERVERS / 2 then
      -- FAILURE; ID = id, then immediately start a new round
      let self' : Client :=
        { self with last_id := id, current_responses := rs, resp_from := fr }
      some (self'.generate_requests fresh)
    else
      some ({ self with current_responses := rs, resp_from := fr }, [])

/-- a participant of the fake cluster -/
inductive Computer
  | server (s : Server)
  | client (c : Client)
deriving DecidableEq, Repr

/-- `Computer::receive`: joint dispatch on participant and message
variant; the `unreachable!()` pairings are `none`. -/
def Computer.receive (self : Computer) (sender : Nat) (message : Message)
    (fresh : Nat) : Option (Computer × List (Nat × Message)) :=
  match self, message with
  | .server s, .Request uuid id =>
      let r := s.propose sender uuid id
      some (.server r.1, r.2)
  | .client c, .Response success uuid id =>
      (c.receive sender success uuid id fresh).map fun r => (.client r.1, r.2)
  | _, _ => none

/-- one in-flight queue entry `(sender, recipient, message)` -/
abbrev Entry := Nat × Nat × Message

/-- whole-system state; `ctr` is the fresh-token counter (ghost). -/
structure Sys where
  computers : List Computer
  in_flight : List Entry
  ctr : Nat
deriving DecidableEq, Repr

/-- the enqueue loop of `main`: for each outbound reply a loss trial is
drawn, but the `continue` acting on it is commented out in the source
(`// XXX continue;`), so every reply is pushed regardless of `drops`. -/
def deliver_outbound (who : Nat) (outbound : List (Nat × Message))
    (drops : List Bool) (queue : List Entry) : List Entry :=
  match outbound, drops with
  | [], _ => queue
  | (destination, message) :: rest, _ :: ds =>
      deliver_outbound who rest ds (queue ++ [(who, destination, message)])
  | (destination, message) :: rest, [] =>
      deliver_outbound who rest [] (queue ++ [(who, destination, message)])

/-- one iteration of the delivery loop: pop the last queue entry,
deliver it (the receiver must not panic), push the replies, advance the
token counter, and shuffle the queue (any permutation). -/
inductive Step : Sys → Sys → Prop
  | deliver (σ : Sys) (rest : List Entry) (sender recipient : Nat) (message : Message)
      (comp comp' : Computer) (outbound : List (Nat × Message)) (drops : List Bool)
      (q' : List Entry)
      (hpop : σ.in_flight = rest ++ [(sender, recipient, message)])
      (hcomp : σ.computers[recipient]? = some comp)
      (hrecv : comp.receive sender message σ.ctr = some (comp', outbound))
      (hperm : q'.Perm (deliver_outbound recipient outbound drops rest)) :
      Step σ ⟨σ.computers.set recipient comp', q', σ.ctr + 1⟩

/-- reflexive-transitive closure of `Step` -/
def Steps : Sys → Sys → Prop := Relation.ReflTransGen Step

/-- cluster state right after construction (`Server::default()`,
`Client::default()`; the nil default uuid is token `0`, and the counter
starts above it). -/
def sysStart : Sys :=
  ⟨List.replicate N_SERVERS (Computer.server ⟨0⟩) ++
     List.replicate N_CLIENTS (Computer.client ⟨0, 0, [], []⟩),
   [], 1⟩

/-- the seeding loop body of `main`: one client generates its initial
requests, which are pushed as `(sender, to, message)`. -/
def seedClient (σ : Sys) (sender : Nat) : Sys :=
  match σ.computers[sender]? with
  | some (.client c) =>
      let (c', outbound) := c.generate_requests σ.ctr
      ⟨σ.computers.set sender (.client c'),
       σ.in_flight ++ outbound.map fun p => (sender, p.1, p.2),
       σ.ctr + 1⟩
  | _ => σ

/-- state after `main`'s seeding loop, at entry of the delivery loop -/
def initSys : Sys :=
  (List.range N_CLIENTS).foldl (fun σ k => seedClient σ (N_SERVERS + k)) sysStart

/-- states reachable by the delivery loop -/
def Reachable (σ : Sys) : Prop := Steps initSys σ

/-- the client occupying slot `i` -/
abbrev IsClientAt (σ : Sys) (i : Nat) (c : Client) : Prop :=
  σ.computers[i]? = some (Computer.client c)

/-- the server occupying slot `i` -/
abbrev IsServerAt (σ : Sys) (i : Nat) (s : Server) : Prop :=
  σ.computers[i]? = some (Computer.server s)

/-- deterministic executable instance of the delivery loop body (used to
build concrete runs): pops the last entry, delivers, pushes the replies,
leaves the shuffle as the identity permutation. -/
def execStep (σ : Sys) : Option Sys :=
  match σ.in_flight.reverse with
  | [] => none
  | (sender, recipient, message) :: restRev =>
    match σ.computers[recipient]? with
    | none => none
    | some comp =>
      match comp.receive sender message σ.ctr with
      | none => none
      | some (comp', outbound) =>
          some ⟨σ.computers.set recipient comp',
                deliver_outbound recipient outbound [] restRev.reverse,
                σ.ctr + 1⟩

/-- concrete run of the simulator: `wit n` is the state after `n`
delivery-loop iterations from `initSys` (identity shuffles). -/
def wit : Nat → Sys
  | 0 => initSys
  | n + 1 => (execStep (wit n)).getD (wit n)

/-- does this entry carry a request from client `c` to server `s` with
token `t`? -/
def isReqOf (c s : Nat) (t : Nat) : Entry → Bool
  | (f, r, Message.Request u _) => f == c && r == s && u == t
  | _ => false

/-- does this entry carry a response from server `s` to client `c` with
token `t`? -/
def isRespOf (c s : Nat) (t : Nat) : Entry → Bool
  | (f, r, Message.Response _ u _) => f == s && r == c && u == t
  | _ => false

/-- in-flight requests from client `c` to server `s` with token `t` -/
def reqN (q : List Entry) (c s : Nat) (t : Nat) : Nat := q.countP (isReqOf c s t)

/-- in-flight responses from server `s` to client `c` with token `t` -/
def respN (q : List Entry) (c s : Nat) (t : Nat) : Nat := q.countP (isRespOf c s t)

/-- how many messages of round `t` between client `c` and server `s` are
pending: a request on the wire, a response on the wire, or a response
already tallied (only rounds whose token is still live tally). -/
def pend (σ : Sys) (c : Nat) (cl : Client) (s : Nat) (t : Nat) : Nat :=
  reqN σ.in_flight c s t + respN σ.in_flight c s t +
    (if t = cl.current_uuid then cl.resp_from.count s else 0)

/-- inductive invariant of the simulator, established at `initSys` and
preserved by every `Step`. -/
structure Inv (σ : Sys) : Prop where
  hlen : σ.computers.length = N_SERVERS + N_CLIENTS
  hshape : ∀ i, i < N_SERVERS → ∃ s, σ.computers[i]? = some (Computer.server s)
  hshapeC : ∀ i, N_SERVERS ≤ i → i < N_SERVERS + N_CLIENTS →
    ∃ c, σ.computers[i]? = some (Computer.client c)
  hwfReq : ∀ f r t id, (f, r, Message.Request t id) ∈ σ.in_flight →
    r < N_SERVERS ∧ N_SERVERS ≤ f ∧ f < N_SERVERS + N_CLIENTS
  hwfResp : ∀ f r b t id, (f, r, Message.Response b t id) ∈ σ.in_flight →
    f < N_SERVERS ∧ N_SERVERS ≤ r ∧ r < N_SERVERS + N_CLIENTS
  htokReq : ∀ f r t id, (f, r, Message.Request t id) ∈ σ.in_flight → t < σ.ctr
  htokResp : ∀ f r b t id, (f, r, Message.Response b t id) ∈ σ.in_flight → t < σ.ctr
  huuid : ∀ c cl, IsClientAt σ c cl → cl.current_uuid < σ.ctr
  hreqCur : ∀ c cl s t id, IsClientAt σ c cl → (c, s, Message.Request t id) ∈ σ.in_flight →
    t = cl.current_uuid → id = cl.last_id + 1
  hrespOk : ∀ c cl s t id, IsClientAt σ c cl →
    (s, c, Message.Response true t id) ∈ σ.in_flight →
    t = cl.current_uuid → id = cl.last_id + 1
  hrespErr : ∀ c cl s t id, IsClientAt σ c cl →
    (s, c, Message.Response false t id) ∈ σ.in_flight →
    t = cl.current_uuid → cl.last_id + 1 ≤ id
  huniq : ∀ c cl s t, IsClientAt σ c cl → pend σ c cl s t ≤ 1
  hnodup : ∀ c cl, IsClientAt σ c cl → cl.resp_from.Nodup
  hlenEq : ∀ c cl, IsClientAt σ c cl → cl.resp_from.length = cl.current_responses.length

/-- a step in which client `c` concludes round `t` by quorum success:
the delivered entry is an accepted response of the client's live round,
and the client's committed id changes. -/
def SuccessStep (σ σ' : Sys) (c : Nat) (t : Nat) : Prop :=
  Step σ σ' ∧
  ∃ rest s id cl cl', σ.in_flight = rest ++ [(s, c, Message.Response true t id)] ∧
    IsClientAt σ c cl ∧ IsClientAt σ' c cl' ∧
    cl.current_uuid = t ∧ cl.last_id ≠ cl'.last_id

/-- the distinct servers whose accepted-true responses sit in the tally
(read off the ghost sender list, which is parallel to the tally). -/
def okSenders (cl : Client) : List Nat :=
  (cl.resp_from.zip cl.current_responses).filterMap
    fun p => if p.2.isOk then some p.1 else none

/-- the ceiling carried by a rejection entry -/
def errVal : TallyEntry → Option Nat
  | .ok _ => none
  | .err i => some i

/-- highest ceiling reported among a tally's rejection entries -/
def maxCeiling (rs : List TallyEntry) : Nat :=
  (rs.filterMap errVal).foldr max 0

/-- a client mid-round: baseline 0, live token 5, five rejections with
ceiling 7 already tallied (from servers 0–4). -/
def cexClient : Client :=
  ⟨0, 5, [.err 7, .err 7, .err 7, .err 7, .err 7], [0, 1, 2, 3, 4]⟩

/-! ## Basic facts about the embedded operations -/

theorem deliver_outbound_eq (who : Nat) (outbound : List (Nat × Message))
    (drops : List Bool) (queue : List Entry) :
    deliver_outbound who outbound drops queue =
      queue ++ outbound.map fun p => (who, p.1, p.2) := by
  induction outbound generalizing drops queue with
  | nil => simp [deliver_outbound]
  | cons hd tl ih =>
    obtain ⟨d, m⟩ := hd
    cases drops with
    | nil => rw [deliver_outbound, ih]; simp
    | cons b bs => rw [deliver_outbound, ih]; simp

theorem execStep_step {σ σ' : Sys} (h : execStep σ = some σ') : Step σ σ' := by
  unfold execStep at h
  split at h
  · exact absurd h (by simp)
  next sender recipient message restRev hrev =>
    split at h
    · exact absurd h (by simp)
    next comp hcomp =>
      split at h
      · exact absurd h (by simp)
      next comp' outbound hrecv =>
        have hpop : σ.in_flight = restRev.reverse ++ [(sender, recipient, message)] := by
          have := congrArg List.reverse hrev
          simpa using this
        have hσ' : σ' = ⟨σ.computers.set recipient comp',
            deliver_outbound recipient outbound [] restRev.reverse, σ.ctr + 1⟩ := by
          exact (Option.some.injEq _ _ ▸ h).symm
        rw [hσ']
        exact Step.deliver σ restRev.reverse sender recipient message comp comp'
          outbound [] _ hpop hcomp hrecv (List.Perm.refl _)

theorem wit_step (n : Nat) (h : (execStep (wit n)).isSome = true) :
    Step (wit n) (wit (n + 1)) := by
  obtain ⟨σ', hσ'⟩ := Option.isSome_iff_exists.mp h
  have hw : wit (n + 1) = σ' := by simp [wit, hσ']
  rw [hw]
  exact execStep_step hσ'

theorem reach_wit {n : Nat} (h : ∀ k, k < n → (execStep (wit k)).isSome = true) :
    Reachable (wit n) := by
  induction n with
  | zero => exact Relation.ReflTransGen.refl
  | succ m ih =>
    exact Relation.ReflTransGen.tail
      (ih fun k hk => h k (Nat.lt_succ_of_lt hk))
      (wit_step m (h m (Nat.lt_succ_self m)))

theorem countP_singleton (p : Entry → Bool) (a : Entry) :
    List.countP p [a] = if p a then 1 else 0 := by
  simp [List.countP_cons]

theorem okCount_append_ok (rs : List TallyEntry) (id : Nat) :
    okCount (rs ++ [TallyEntry.ok id]) = okCount rs + 1 := by
  simp [okCount, List.countP_append, List.countP_cons, TallyEntry.isOk]

theorem okCount_append_err (rs : List TallyEntry) (id : Nat) :
    okCount (rs ++ [TallyEntry.err id]) = okCount rs := by
  simp [okCount, List.countP_append, List.countP_cons, TallyEntry.isOk]

theorem errCount_append_err (rs : List TallyEntry) (id : Nat) :
    errCount (rs ++ [TallyEntry.err id]) = errCount rs + 1 := by
  simp [errCount, List.countP_append, List.countP_cons, TallyEntry.isErr]

theorem errCount_append_ok (rs : List TallyEntry) (id : Nat) :
    errCount (rs ++ [TallyEntry.ok id]) = errCount rs := by
  simp [errCount, List.countP_append, List.countP_cons, TallyEntry.isErr]

/-- `Server::propose` either accepts strictly larger proposals (raising
the ceiling) or rejects, reporting the ceiling. -/
theorem propose_cases (s : Server) (sender : Nat) (uuid : Nat) (id : Nat) :
    (s.max_id < id ∧
      s.propose sender uuid id = (⟨id⟩, [(sender, Message.Response true uuid id)])) ∨
    (id ≤ s.max_id ∧
      s.propose sender uuid id = (s, [(sender, Message.Response false uuid s.max_id)])) := by
  by_cases h : s.max_id < id
  · exact Or.inl ⟨h, by simp [Server.propose, h]⟩
  · exact Or.inr ⟨Nat.le_of_not_lt h, by simp [Server.propose, h]⟩

/-- exhaustive description of the non-panicking runs of `Client::receive` -/
theorem client_receive_cases {cl : Client} {sender : Nat} {b : Bool} {t : Nat}
    {id : Nat} {fresh : Nat} {cl' : Client} {out : List (Nat × Message)}
    (h : cl.receive sender b t id fresh = some (cl', out)) :
    (t ≠ cl.current_uuid ∧ cl' = cl ∧ out = []) ∨
    (t = cl.current_uuid ∧ b = true ∧ id = cl.last_id + 1 ∧
      ((okCount (cl.current_responses ++ [TallyEntry.ok id]) > N_SERVERS / 2 ∧
        cl' = ⟨id, fresh, cl.current_responses ++ [TallyEntry.ok id],
               cl.resp_from ++ [sender]⟩ ∧ out = []) ∨
       (okCount (cl.current_responses ++ [TallyEntry.ok id]) ≤ N_SERVERS / 2 ∧
        cl' = { cl with current_responses := cl.current_responses ++ [TallyEntry.ok id],
                        resp_from := cl.resp_from ++ [sender] } ∧ out = []))) ∨
    (t = cl.current_uuid ∧ b = false ∧
      ((errCount (cl.current_responses ++ [TallyEntry.err id]) > N_SERVERS / 2 ∧
        cl' = ⟨id, fresh, [], []⟩ ∧
        out = (List.range N_SERVERS).map fun i => (i, Message.Request fresh (id + 1))) ∨
       (errCount (cl.current_responses ++ [TallyEntry.err id]) ≤ N_SERVERS / 2 ∧
        cl' = { cl with current_responses := cl.current_responses ++ [TallyEntry.err id],
                        resp_from := cl.resp_from ++ [sender] } ∧ out = []))) := by
  by_cases hne : t = cl.current_uuid
  · rw [Client.receive, if_neg (by simp [hne])] at h
    cases b with
    | true =>
      by_cases hid : id = cl.last_id + 1
      · rw [if_pos rfl, if_pos hid] at h
        by_cases hth : okCount (cl.current_responses ++ [TallyEntry.ok id]) > N_SERVERS / 2
        · rw [if_pos hth] at h
          rw [if_pos (show cl.last_id < id by omega)] at h
          obtain ⟨h1, h2⟩ := Prod.mk.injEq .. ▸ Option.some.inj h
          exact Or.inr (Or.inl ⟨hne, rfl, hid, Or.inl ⟨hth, h1.symm, h2.symm⟩⟩)
        · rw [if_neg hth] at h
          obtain ⟨h1, h2⟩ := Prod.mk.injEq .. ▸ Option.some.inj h
          exact Or.inr (Or.inl ⟨hne, rfl, hid,
            Or.inr ⟨Nat.le_of_not_lt hth, h1.symm, h2.symm⟩⟩)
      · rw [if_pos rfl, if_neg hid] at h
        exact absurd h (by simp)
    | false =>
      rw [if_neg (by simp)] at h
      by_cases hth : errCount (cl.current_responses ++ [TallyEntry.err id]) > N_SERVERS / 2
      · rw [if_pos hth] at h
        obtain ⟨h1, h2⟩ := Prod.mk.injEq .. ▸ Option.some.inj h
        exact Or.inr (Or.inr ⟨hne, rfl, Or.inl ⟨hth, h1.symm, h2.symm⟩⟩)
      · rw [if_neg hth] at h
        obtain ⟨h1, h2⟩ := Prod.mk.injEq .. ▸ Option.some.inj h
        exact Or.inr (Or.inr ⟨hne, rfl,
          Or.inr ⟨Nat.le_of_not_lt hth, h1.symm, h2.symm⟩⟩)
  · rw [Client.receive, if_pos (by simp [hne])] at h
    obtain ⟨h1, h2⟩ := Prod.mk.injEq .. ▸ Option.some.inj h
    exact Or.inl ⟨hne, h1.symm, h2.symm⟩

/-- dispatch: a server only survives a `Request` -/
theorem receive_server_some {s : Server} {sender : Nat} {m : Message} {fresh : Nat}
    {comp' : Computer} {out : List (Nat × Message)}
    (h : Computer.receive (.server s) sender m fresh = some (comp', out)) :
    ∃ uuid id, m = .Request uuid id ∧
      comp' = .server (s.propose sender uuid id).1 ∧ out = (s.propose sender uuid id).2 := by
  cases m with
  | Request uuid id =>
    rw [Computer.receive] at h
    obtain ⟨h1, h2⟩ := Prod.mk.injEq .. ▸ Option.some.inj h
    exact ⟨uuid, id, rfl, h1.symm, h2.symm⟩
  | Response b uuid id => exact absurd h (by simp [Computer.receive])

/-- dispatch: a client only survives a `Response` -/
theorem receive_client_some {cl : Client} {sender : Nat} {m : Message} {fresh : Nat}
    {comp' : Computer} {out : List (Nat × Message)}
    (h : Computer.receive (.client cl) sender m fresh = some (comp', out)) :
    ∃ b uuid id cl', m = .Response b uuid id ∧
      cl.receive sender b uuid id fresh = some (cl', out) ∧ comp' = .client cl' := by
  cases m with
  | Request uuid id => exact absurd h (by simp [Computer.receive])
  | Response b uuid id =>
    rw [Computer.receive] at h
    cases hcr : cl.receive sender b uuid id fresh with
    | none => rw [hcr] at h; exact absurd h (by simp)
    | some r =>
      rw [hcr] at h
      obtain ⟨h1, h2⟩ := Prod.mk.injEq .. ▸ Option.some.inj h
      exact ⟨b, uuid, id, r.1, rfl, by rw [hcr, ← h2], h1.symm⟩

/-! ## Slot-indexing facts -/

theorem server_idx_lt {σ : Sys} (hinv : Inv σ) {i : Nat} {s : Server}
    (h : IsServerAt σ i s) : i < N_SERVERS := by
  by_contra hge
  push_neg at hge
  by_cases hlt : i < N_SERVERS + N_CLIENTS
  · obtain ⟨c, hc⟩ := hinv.hshapeC i hge hlt
    rw [IsServerAt] at h
    rw [h] at hc
    exact absurd (Option.some.inj hc) (by simp)
  · have hnone : σ.computers[i]? = none :=
      List.getElem?_eq_none (by rw [hinv.hlen]; omega)
    rw [IsServerAt, hnone] at h
    exact absurd h (by simp)

theorem client_idx_range {σ : Sys} (hinv : Inv σ) {i : Nat} {c : Client}
    (h : IsClientAt σ i c) : N_SERVERS ≤ i ∧ i < N_SERVERS + N_CLIENTS := by
  rw [IsClientAt] at h
  by_cases hlo : i < N_SERVERS
  · obtain ⟨s, hs⟩ := hinv.hshape i hlo
    rw [h] at hs
    exact absurd (Option.some.inj hs) (by simp)
  · by_cases hhi : i < N_SERVERS + N_CLIENTS
    · exact ⟨Nat.le_of_not_lt hlo, hhi⟩
    · have hnone : σ.computers[i]? = none :=
        List.getElem?_eq_none (by rw [hinv.hlen]; omega)
      rw [hnone] at h
      exact absurd h (by simp)

theorem isClientAt_set_ne {σ : Sys} {q' : List Entry} {ctr' : Nat} {r i : Nat}
    {comp' : Computer} (hne : r ≠ i) {c : Client} :
    IsClientAt ⟨σ.computers.set r comp', q', ctr'⟩ i c ↔ IsClientAt σ i c := by
  unfold IsClientAt
  rw [List.getElem?_set_ne hne]

theorem isClientAt_set_self {σ : Sys} {q' : List Entry} {ctr' : Nat} {r : Nat}
    {comp' : Computer} (hr : r < σ.computers.length) {c : Client} :
    IsClientAt ⟨σ.computers.set r comp', q', ctr'⟩ r c ↔ comp' = Computer.client c := by
  unfold IsClientAt
  rw [List.getElem?_set_self hr]
  exact ⟨fun h => Option.some.inj h, fun h => h ▸ rfl⟩

/-! ## Queue-accounting helpers -/

theorem countP_req_zero_of_tok {q : List Entry} {B : Nat}
    (htk : ∀ f r t i, (f, r, Message.Request t i) ∈ q → t < B)
    {c s₁ t₁ : Nat} (ht : B ≤ t₁) : q.countP (isReqOf c s₁ t₁) = 0 := by
  rw [List.countP_eq_zero]
  rintro ⟨f, r, m⟩ hmem hp
  cases m with
  | Request u i =>
    simp only [isReqOf, Bool.and_eq_true, beq_iff_eq] at hp
    exact absurd (htk f r u i hmem) (by omega)
  | Response b u i => simp [isRespOf, isReqOf] at hp

theorem countP_resp_zero_of_tok {q : List Entry} {B : Nat}
    (htk : ∀ f r b t i, (f, r, Message.Response b t i) ∈ q → t < B)
    {c s₁ t₁ : Nat} (ht : B ≤ t₁) : q.countP (isRespOf c s₁ t₁) = 0 := by
  rw [List.countP_eq_zero]
  rintro ⟨f, r, m⟩ hmem hp
  cases m with
  | Request u i => simp [isRespOf] at hp
  | Response b u i =>
    simp only [isRespOf, Bool.and_eq_true, beq_iff_eq] at hp
    exact absurd (htk f r b u i hmem) (by omega)

theorem countP_req_range (c0 tk pid c s₁ t₁ : Nat) : ∀ n : Nat,
    List.countP (isReqOf c s₁ t₁)
        ((List.range n).map fun i => (c0, i, Message.Request tk pid)) =
      if c0 = c ∧ s₁ < n ∧ t₁ = tk then 1 else 0 := by
  intro n
  induction n with
  | zero => simp
  | succ m ih =>
    rw [List.range_succ, List.map_append, List.countP_append, ih]
    simp only [List.map_cons, List.map_nil, countP_singleton, isReqOf,
      Bool.and_eq_true, beq_iff_eq]
    by_cases h1 : c0 = c <;> by_cases h2 : t₁ = tk <;> simp [h1, h2] <;>
      first
      | omega
      | (split_ifs <;> omega)

theorem countP_resp_range_zero (c0 tk pid c s₁ t₁ : Nat) (n : Nat) :
    List.countP (isRespOf c s₁ t₁)
        ((List.range n).map fun i => (c0, i, Message.Request tk pid)) = 0 := by
  rw [List.countP_eq_zero]
  intro e he
  simp only [List.mem_map, List.mem_range] at he
  obtain ⟨i, _, rfl⟩ := he
  simp [isRespOf]

/-! ## Invariant preservation -/

theorem step_inv_server {σ : Sys} (hinv : Inv σ) {rest : List Entry}
    {sender recipient uuid pid : Nat}
    (hpop : σ.in_flight = rest ++ [(sender, recipient, Message.Request uuid pid)])
    {s : Server} (hcomp : σ.computers[recipient]? = some (Computer.server s))
    (s' : Server) {b : Bool} {x : Nat}
    (hok : b = true → x = pid)
    (herr : b = false → pid ≤ x)
    {q' : List Entry}
    (hq' : q'.Perm (rest ++ [(recipient, sender, Message.Response b uuid x)])) :
    Inv ⟨σ.computers.set recipient (Computer.server s'), q', σ.ctr + 1⟩ := by
  have hE : (sender, recipient, Message.Request uuid pid) ∈ σ.in_flight := by
    rw [hpop]; exact List.mem_append_right _ (by simp)
  have hrlt : recipient < N_SERVERS := server_idx_lt hinv hcomp
  have hsr := hinv.hwfReq _ _ _ _ hE
  have htokE : uuid < σ.ctr := hinv.htokReq _ _ _ _ hE
  have hmemq' : ∀ e : Entry,
      e ∈ q' ↔ e ∈ rest ∨ e = (recipient, sender, Message.Response b uuid x) := by
    intro e; rw [hq'.mem_iff]; simp
  have hmemrest : ∀ e : Entry, e ∈ rest → e ∈ σ.in_flight := by
    intro e he; rw [hpop]; exact List.mem_append_left _ he
  have hclAt : ∀ i c, IsClientAt ⟨σ.computers.set recipient (Computer.server s'),
      q', σ.ctr + 1⟩ i c ↔ IsClientAt σ i c := by
    intro i c
    by_cases hir : recipient = i
    · subst hir
      have hlt : recipient < σ.computers.length := by rw [hinv.hlen]; omega
      rw [isClientAt_set_self hlt]
      constructor
      · intro h; simp at h
      · intro h; rw [IsClientAt, hcomp] at h; simp at h
    · exact isClientAt_set_ne hir
  refine ⟨?_, ?_, ?_, ?_, ?_, ?_, ?_, ?_, ?_, ?_, ?_, ?_, ?_, ?_⟩
  · rw [List.length_set, hinv.hlen]
  · intro i hi
    by_cases hir : recipient = i
    · subst hir
      have hlt : recipient < σ.computers.length := by rw [hinv.hlen]; omega
      exact ⟨s', by simp [List.getElem?_set_self hlt]⟩
    · obtain ⟨s₂, hs₂⟩ := hinv.hshape i hi
      exact ⟨s₂, by rw [List.getElem?_set_ne hir]; exact hs₂⟩
  · intro i h10 h25
    have hir : recipient ≠ i := by omega
    obtain ⟨c, hc⟩ := hinv.hshapeC i h10 h25
    exact ⟨c, by rw [List.getElem?_set_ne hir]; exact hc⟩
  · intro f r t i hmem
    rcases (hmemq' _).mp hmem with hr | he
    · exact hinv.hwfReq _ _ _ _ (hmemrest _ hr)
    · simp at he
  · intro f r bb t i hmem
    rcases (hmemq' _).mp hmem with hr | he
    · exact hinv.hwfResp _ _ _ _ _ (hmemrest _ hr)
    · simp only [Prod.mk.injEq, Message.Response.injEq] at he
      obtain ⟨h1, h2, _⟩ := he
      rw [h1, h2]
      exact ⟨hrlt, hsr.2.1, hsr.2.2⟩
  · intro f r t i hmem
    rcases (hmemq' _).mp hmem with hr | he
    · exact Nat.lt_succ_of_lt (hinv.htokReq _ _ _ _ (hmemrest _ hr))
    · simp at he
  · intro f r bb t i hmem
    rcases (hmemq' _).mp hmem with hr | he
    · exact Nat.lt_succ_of_lt (hinv.htokResp _ _ _ _ _ (hmemrest _ hr))
    · simp only [Prod.mk.injEq, Message.Response.injEq] at he
      obtain ⟨_, _, _, ht2, _⟩ := he
      rw [ht2]
      exact Nat.lt_succ_of_lt htokE
  · intro c cl hcl
    exact Nat.lt_succ_of_lt (hinv.huuid c cl ((hclAt c cl).mp hcl))
  · intro c cl s₁ t i hcl hmem ht
    rcases (hmemq' _).mp hmem with hr | he
    · exact hinv.hreqCur c cl s₁ t i ((hclAt c cl).mp hcl) (hmemrest _ hr) ht
    · simp at he
  · intro c cl s₁ t i hcl hmem ht
    have hclσ := (hclAt c cl).mp hcl
    rcases (hmemq' _).mp hmem with hr | he
    · exact hinv.hrespOk c cl s₁ t i hclσ (hmemrest _ hr) ht
    · simp only [Prod.mk.injEq, Message.Response.injEq] at he
      obtain ⟨h1, h2, hb, ht2, hx⟩ := he
      rw [hx, hok hb.symm]
      refine hinv.hreqCur c cl recipient uuid pid hclσ ?_ ?_
      · rw [h2]; exact hE
      · rw [← ht2]; exact ht
  · intro c cl s₁ t i hcl hmem ht
    have hclσ := (hclAt c cl).mp hcl
    rcases (hmemq' _).mp hmem with hr | he
    · exact hinv.hrespErr c cl s₁ t i hclσ (hmemrest _ hr) ht
    · simp only [Prod.mk.injEq, Message.Response.injEq] at he
      obtain ⟨h1, h2, hb, ht2, hx⟩ := he
      have hpideq : pid = cl.last_id + 1 := by
        refine hinv.hreqCur c cl recipient uuid pid hclσ ?_ ?_
        · rw [h2]; exact hE
        · rw [← ht2]; exact ht
      have hpx := herr hb.symm
      rw [hx]
      omega
  · intro c cl s₁ t hcl
    have hclσ := (hclAt c cl).mp hcl
    have hold := hinv.huniq c cl s₁ t hclσ
    unfold pend reqN respN at hold ⊢
    rw [hpop, List.countP_append, List.countP_append] at hold
    rw [List.Perm.countP_eq (isReqOf c s₁ t) hq',
        List.Perm.countP_eq (isRespOf c s₁ t) hq',
        List.countP_append, List.countP_append]
    have hswap : List.countP (isRespOf c s₁ t)
          [(recipient, sender, Message.Response b uuid x)] =
        List.countP (isReqOf c s₁ t)
          [(sender, recipient, Message.Request uuid pid)] := by
      rw [countP_singleton, countP_singleton]
      by_cases h1 : sender = c <;> by_cases h2 : recipient = s₁ <;>
        by_cases h3 : uuid = t <;> simp [isReqOf, isRespOf, h1, h2, h3]
    have hz1 : List.countP (isReqOf c s₁ t)
        [(recipient, sender, Message.Response b uuid x)] = 0 := by
      simp [countP_singleton, isReqOf]
    have hz2 : List.countP (isRespOf c s₁ t)
        [(sender, recipient, Message.Request uuid pid)] = 0 := by
      simp [countP_singleton, isRespOf]
    rw [hswap, hz1] at *
    omega
  · intro c cl hcl
    exact hinv.hnodup c cl ((hclAt c cl).mp hcl)
  · intro c cl hcl
    exact hinv.hlenEq c cl ((hclAt c cl).mp hcl)

theorem isClientAt_update {σ : Sys} (hinv : Inv σ) {c0 : Nat} {cl0 : Client}
    (hcomp : σ.computers[c0]? = some (Computer.client cl0)) (cl' : Client)
    (q' : List Entry) (ctr' : Nat) : ∀ i c,
    IsClientAt ⟨σ.computers.set c0 (Computer.client cl'), q', ctr'⟩ i c ↔
      ((i = c0 ∧ c = cl') ∨ (i ≠ c0 ∧ IsClientAt σ i c)) := by
  intro i c
  by_cases hic : c0 = i
  · subst hic
    have hlt : c0 < σ.computers.length := by
      rw [hinv.hlen]
      exact (client_idx_range hinv hcomp).2
    rw [isClientAt_set_self hlt]
    constructor
    · intro h
      exact Or.inl ⟨rfl, (Computer.client.inj h).symm⟩
    · rintro (⟨_, rfl⟩ | ⟨hne, _⟩)
      · rfl
      · exact absurd rfl hne
  · rw [isClientAt_set_ne hic]
    constructor
    · intro h
      exact Or.inr ⟨fun he => hic he.symm, h⟩
    · rintro (⟨rfl, _⟩ | ⟨_, h⟩)
      · exact absurd rfl hic
      · exact h

theorem shape_update {σ : Sys} (hinv : Inv σ) {c0 : Nat} {cl0 : Client}
    (hcomp : σ.computers[c0]? = some (Computer.client cl0)) (cl' : Client)
    (q' : List Entry) (ctr' : Nat) :
    (∀ i, i < N_SERVERS →
      ∃ s, (Sys.mk (σ.computers.set c0 (Computer.client cl')) q' ctr').computers[i]? =
        some (Computer.server s)) ∧
    (∀ i, N_SERVERS ≤ i → i < N_SERVERS + N_CLIENTS →
      ∃ c, (Sys.mk (σ.computers.set c0 (Computer.client cl')) q' ctr').computers[i]? =
        some (Computer.client c)) := by
  have hc0 := client_idx_range hinv hcomp
  constructor
  · intro i hi
    have hic : c0 ≠ i := by omega
    obtain ⟨s₂, hs₂⟩ := hinv.hshape i hi
    exact ⟨s₂, by rw [List.getElem?_set_ne hic]; exact hs₂⟩
  · intro i h10 h25
    by_cases hic : c0 = i
    · subst hic
      have hlt : c0 < σ.computers.length := by rw [hinv.hlen]; omega
      exact ⟨cl', by simp [List.getElem?_set_self hlt]⟩
    · obtain ⟨c₂, hc₂⟩ := hinv.hshapeC i h10 h25
      exact ⟨c₂, by rw [List.getElem?_set_ne hic]; exact hc₂⟩

theorem step_inv_client_inert {σ : Sys} (hinv : Inv σ) {rest : List Entry}
    {sv c0 : Nat} {b : Bool} {t rid : Nat}
    (hpop : σ.in_flight = rest ++ [(sv, c0, Message.Response b t rid)])
    {cl0 : Client} (hcomp : σ.computers[c0]? = some (Computer.client cl0))
    {q' : List Entry} (hq' : q'.Perm rest) :
    Inv ⟨σ.computers.set c0 (Computer.client cl0), q', σ.ctr + 1⟩ := by
  have hE : (sv, c0, Message.Response b t rid) ∈ σ.in_flight := by
    rw [hpop]; exact List.mem_append_right _ (by simp)
  have hmemrest : ∀ e : Entry, e ∈ rest → e ∈ σ.in_flight := by
    intro e he; rw [hpop]; exact List.mem_append_left _ he
  have hmemq' : ∀ e : Entry, e ∈ q' → e ∈ σ.in_flight := by
    intro e he; exact hmemrest _ (hq'.mem_iff.mp he)
  have hclAt := isClientAt_update hinv hcomp cl0 q' (σ.ctr + 1)
  have hclTr : ∀ i c, IsClientAt ⟨σ.computers.set c0 (Computer.client cl0), q',
      σ.ctr + 1⟩ i c → IsClientAt σ i c := by
    intro i c hcl
    rcases (hclAt i c).mp hcl with ⟨rfl, rfl⟩ | ⟨_, h⟩
    · exact hcomp
    · exact h
  have hsh := shape_update hinv hcomp cl0 q' (σ.ctr + 1)
  refine ⟨?_, hsh.1, hsh.2, ?_, ?_, ?_, ?_, ?_, ?_, ?_, ?_, ?_, ?_, ?_⟩
  · rw [List.length_set, hinv.hlen]
  · exact fun f r t₁ i hm => hinv.hwfReq _ _ _ _ (hmemq' _ hm)
  · exact fun f r b₁ t₁ i hm => hinv.hwfResp _ _ _ _ _ (hmemq' _ hm)
  · exact fun f r t₁ i hm => Nat.lt_succ_of_lt (hinv.htokReq _ _ _ _ (hmemq' _ hm))
  · exact fun f r b₁ t₁ i hm =>
      Nat.lt_succ_of_lt (hinv.htokResp _ _ _ _ _ (hmemq' _ hm))
  · exact fun c cl hcl => Nat.lt_succ_of_lt (hinv.huuid c cl (hclTr c cl hcl))
  · exact fun c cl s₁ t₁ i hcl hm ht₁ =>
      hinv.hreqCur c cl s₁ t₁ i (hclTr c cl hcl) (hmemq' _ hm) ht₁
  · exact fun c cl s₁ t₁ i hcl hm ht₁ =>
      hinv.hrespOk c cl s₁ t₁ i (hclTr c cl hcl) (hmemq' _ hm) ht₁
  · exact fun c cl s₁ t₁ i hcl hm ht₁ =>
      hinv.hrespErr c cl s₁ t₁ i (hclTr c cl hcl) (hmemq' _ hm) ht₁
  · intro c cl s₁ t₁ hcl
    have hold := hinv.huniq c cl s₁ t₁ (hclTr c cl hcl)
    unfold pend reqN respN at hold ⊢
    rw [hpop, List.countP_append, List.countP_append] at hold
    rw [List.Perm.countP_eq (isReqOf c s₁ t₁) hq',
        List.Perm.countP_eq (isRespOf c s₁ t₁) hq']
    omega
  · exact fun c cl hcl => hinv.hnodup c cl (hclTr c cl hcl)
  · exact fun c cl hcl => hinv.hlenEq c cl (hclTr c cl hcl)

theorem tally_sender_fresh {σ : Sys} (hinv : Inv σ) {rest : List Entry}
    {sv c0 : Nat} {b : Bool} {t rid : Nat}
    (hpop : σ.in_flight = rest ++ [(sv, c0, Message.Response b t rid)])
    {cl0 : Client} (hcomp : σ.computers[c0]? = some (Computer.client cl0))
    (ht : t = cl0.current_uuid) : sv ∉ cl0.resp_from := by
  have hE : (sv, c0, Message.Response b t rid) ∈ σ.in_flight := by
    rw [hpop]; exact List.mem_append_right _ (by simp)
  have hold := hinv.huniq c0 cl0 sv t hcomp
  have hpos : 0 < respN σ.in_flight c0 sv t := by
    rw [respN, List.countP_pos_iff]
    exact ⟨_, hE, by simp [isRespOf]⟩
  unfold pend at hold
  rw [if_pos ht] at hold
  intro hmem
  have : 0 < cl0.resp_from.count sv := List.count_pos_iff.mpr hmem
  omega

theorem step_inv_client_push {σ : Sys} (hinv : Inv σ) {rest : List Entry}
    {sv c0 : Nat} {b : Bool} {t rid : Nat}
    (hpop : σ.in_flight = rest ++ [(sv, c0, Message.Response b t rid)])
    {cl0 : Client} (hcomp : σ.computers[c0]? = some (Computer.client cl0))
    (ht : t = cl0.current_uuid) (entry : TallyEntry)
    {q' : List Entry} (hq' : q'.Perm rest) :
    Inv ⟨σ.computers.set c0 (Computer.client
      { cl0 with current_responses := cl0.current_responses ++ [entry],
                 resp_from := cl0.resp_from ++ [sv] }), q', σ.ctr + 1⟩ := by
  set cl' : Client :=
    { cl0 with current_responses := cl0.current_responses ++ [entry],
               resp_from := cl0.resp_from ++ [sv] } with hcl'
  have hE : (sv, c0, Message.Response b t rid) ∈ σ.in_flight := by
    rw [hpop]; exact List.mem_append_right _ (by simp)
  have hsvlt : sv < N_SERVERS := (hinv.hwfResp _ _ _ _ _ hE).1
  have hsvfresh : sv ∉ cl0.resp_from := tally_sender_fresh hinv hpop hcomp ht
  have hmemrest : ∀ e : Entry, e ∈ rest → e ∈ σ.in_flight := by
    intro e he; rw [hpop]; exact List.mem_append_left _ he
  have hmemq' : ∀ e : Entry, e ∈ q' → e ∈ σ.in_flight := by
    intro e he; exact hmemrest _ (hq'.mem_iff.mp he)
  have hclAt := isClientAt_update hinv hcomp cl' q' (σ.ctr + 1)
  have hsh := shape_update hinv hcomp cl' q' (σ.ctr + 1)
  refine ⟨?_, hsh.1, hsh.2, ?_, ?_, ?_, ?_, ?_, ?_, ?_, ?_, ?_, ?_, ?_⟩
  · rw [List.length_set, hinv.hlen]
  · exact fun f r t₁ i hm => hinv.hwfReq _ _ _ _ (hmemq' _ hm)
  · exact fun f r b₁ t₁ i hm => hinv.hwfResp _ _ _ _ _ (hmemq' _ hm)
  · exact fun f r t₁ i hm => Nat.lt_succ_of_lt (hinv.htokReq _ _ _ _ (hmemq' _ hm))
  · exact fun f r b₁ t₁ i hm =>
      Nat.lt_succ_of_lt (hinv.htokResp _ _ _ _ _ (hmemq' _ hm))
  · intro c cl hcl
    rcases (hclAt c cl).mp hcl with ⟨rfl, rfl⟩ | ⟨_, h⟩
    · exact Nat.lt_succ_of_lt (hinv.huuid c cl0 hcomp)
    · exact Nat.lt_succ_of_lt (hinv.huuid c cl h)
  · intro c cl s₁ t₁ i hcl hm ht₁
    rcases (hclAt c cl).mp hcl with ⟨rfl, rfl⟩ | ⟨_, h⟩
    · exact hinv.hreqCur c cl0 s₁ t₁ i hcomp (hmemq' _ hm) ht₁
    · exact hinv.hreqCur c cl s₁ t₁ i h (hmemq' _ hm) ht₁
  · intro c cl s₁ t₁ i hcl hm ht₁
    rcases (hclAt c cl).mp hcl with ⟨rfl, rfl⟩ | ⟨_, h⟩
    · exact hinv.hrespOk c cl0 s₁ t₁ i hcomp (hmemq' _ hm) ht₁
    · exact hinv.hrespOk c cl s₁ t₁ i h (hmemq' _ hm) ht₁
  · intro c cl s₁ t₁ i hcl hm ht₁
    rcases (hclAt c cl).mp hcl with ⟨rfl, rfl⟩ | ⟨_, h⟩
    · exact hinv.hrespErr c cl0 s₁ t₁ i hcomp (hmemq' _ hm) ht₁
    · exact hinv.hrespErr c cl s₁ t₁ i h (hmemq' _ hm) ht₁
  · intro c cl s₁ t₁ hcl
    rcases (hclAt c cl).mp hcl with ⟨rfl, rfl⟩ | ⟨hne, h⟩
    · have hold := hinv.huniq c cl0 s₁ t₁ hcomp
      unfold pend reqN respN at hold ⊢
      rw [hpop, List.countP_append, List.countP_append] at hold
      rw [List.Perm.countP_eq (isReqOf c s₁ t₁) hq',
          List.Perm.countP_eq (isRespOf c s₁ t₁) hq']
      have hcntE : List.countP (isRespOf c s₁ t₁) [(sv, c, Message.Response b t rid)] =
          if sv = s₁ ∧ t = t₁ then 1 else 0 := by
        rw [countP_singleton]
        by_cases h1 : sv = s₁ <;> by_cases h2 : t = t₁ <;> simp [isRespOf, h1, h2]
      have hTally : (cl0.resp_from ++ [sv]).count s₁ =
          cl0.resp_from.count s₁ + (if sv = s₁ then 1 else 0) := by
        rw [List.count_append, List.count_singleton]
        by_cases h1 : sv = s₁ <;> simp [h1]
      simp only [hcl'] at *
      rw [hcntE] at hold
      by_cases htt : t₁ = cl0.current_uuid
      · rw [if_pos htt] at hold ⊢
        rw [hTally]
        have hteq : (t = t₁) ↔ True := by
          constructor
          · exact fun _ => trivial
          · intro _; rw [ht, htt]
        by_cases h1 : sv = s₁ <;> simp [h1, hteq] at hold ⊢ <;> omega
      · rw [if_neg htt] at hold ⊢
        omega
    · have hold := hinv.huniq c cl s₁ t₁ h
      unfold pend reqN respN at hold ⊢
      rw [hpop, List.countP_append, List.countP_append] at hold
      rw [List.Perm.countP_eq (isReqOf c s₁ t₁) hq',
          List.Perm.countP_eq (isRespOf c s₁ t₁) hq']
      omega
  · intro c cl hcl
    rcases (hclAt c cl).mp hcl with ⟨rfl, rfl⟩ | ⟨_, h⟩
    · refine (hinv.hnodup c cl0 hcomp).append (List.nodup_singleton sv) ?_
      intro a ha hb
      rw [List.mem_singleton] at hb
      subst hb
      exact hsvfresh ha
    · exact hinv.hnodup c cl h
  · intro c cl hcl
    rcases (hclAt c cl).mp hcl with ⟨rfl, rfl⟩ | ⟨_, h⟩
    · simp [hcl', hinv.hlenEq c cl0 hcomp]
    · exact hinv.hlenEq c cl h

theorem step_inv_client_success {σ : Sys} (hinv : Inv σ) {rest : List Entry}
    {sv c0 : Nat} {b : Bool} {t rid : Nat}
    (hpop : σ.in_flight = rest ++ [(sv, c0, Message.Response b t rid)])
    {cl0 : Client} (hcomp : σ.computers[c0]? = some (Computer.client cl0))
    (ht : t = cl0.current_uuid) (nid : Nat) (entry : TallyEntry)
    {q' : List Entry} (hq' : q'.Perm rest) :
    Inv ⟨σ.computers.set c0 (Computer.client
      ⟨nid, σ.ctr, cl0.current_responses ++ [entry], cl0.resp_from ++ [sv]⟩),
      q', σ.ctr + 1⟩ := by
  set cl' : Client :=
    ⟨nid, σ.ctr, cl0.current_responses ++ [entry], cl0.resp_from ++ [sv]⟩ with hcl'
  have hsvfresh : sv ∉ cl0.resp_from := tally_sender_fresh hinv hpop hcomp ht
  have hnd : cl'.resp_from.Nodup := by
    refine (hinv.hnodup c0 cl0 hcomp).append (List.nodup_singleton sv) ?_
    intro a ha hb
    rw [List.mem_singleton] at hb
    subst hb
    exact hsvfresh ha
  have hmemrest : ∀ e : Entry, e ∈ rest → e ∈ σ.in_flight := by
    intro e he; rw [hpop]; exact List.mem_append_left _ he
  have hmemq' : ∀ e : Entry, e ∈ q' → e ∈ σ.in_flight := by
    intro e he; exact hmemrest _ (hq'.mem_iff.mp he)
  have hclAt := isClientAt_update hinv hcomp cl' q' (σ.ctr + 1)
  have hsh := shape_update hinv hcomp cl' q' (σ.ctr + 1)
  refine ⟨?_, hsh.1, hsh.2, ?_, ?_, ?_, ?_, ?_, ?_, ?_, ?_, ?_, ?_, ?_⟩
  · rw [List.length_set, hinv.hlen]
  · exact fun f r t₁ i hm => hinv.hwfReq _ _ _ _ (hmemq' _ hm)
  · exact fun f r b₁ t₁ i hm => hinv.hwfResp _ _ _ _ _ (hmemq' _ hm)
  · exact fun f r t₁ i hm => Nat.lt_succ_of_lt (hinv.htokReq _ _ _ _ (hmemq' _ hm))
  · exact fun f r b₁ t₁ i hm =>
      Nat.lt_succ_of_lt (hinv.htokResp _ _ _ _ _ (hmemq' _ hm))
  · intro c cl hcl
    rcases (hclAt c cl).mp hcl with ⟨rfl, rfl⟩ | ⟨_, h⟩
    · exact Nat.lt_succ_self _
    · exact Nat.lt_succ_of_lt (hinv.huuid c cl h)
  · intro c cl s₁ t₁ i hcl hm ht₁
    rcases (hclAt c cl).mp hcl with ⟨rfl, rfl⟩ | ⟨_, h⟩
    · have := hinv.htokReq _ _ _ _ (hmemq' _ hm)
      rw [ht₁] at this
      simp only [hcl'] at this
      omega
    · exact hinv.hreqCur c cl s₁ t₁ i h (hmemq' _ hm) ht₁
  · intro c cl s₁ t₁ i hcl hm ht₁
    rcases (hclAt c cl).mp hcl with ⟨rfl, rfl⟩ | ⟨_, h⟩
    · have := hinv.htokResp _ _ _ _ _ (hmemq' _ hm)
      rw [ht₁] at this
      simp only [hcl'] at this
      omega
    · exact hinv.hrespOk c cl s₁ t₁ i h (hmemq' _ hm) ht₁
  · intro c cl s₁ t₁ i hcl hm ht₁
    rcases (hclAt c cl).mp hcl with ⟨rfl, rfl⟩ | ⟨_, h⟩
    · have := hinv.htokResp _ _ _ _ _ (hmemq' _ hm)
      rw [ht₁] at this
      simp only [hcl'] at this
      omega
    · exact hinv.hrespErr c cl s₁ t₁ i h (hmemq' _ hm) ht₁
  · intro c cl s₁ t₁ hcl
    rcases (hclAt c cl).mp hcl with ⟨rfl, rfl⟩ | ⟨hne, h⟩
    · unfold pend reqN respN
      by_cases htc : t₁ = cl'.current_uuid
      · have hctr : σ.ctr ≤ t₁ := by simp only [hcl'] at htc; omega
        have hz1 : q'.countP (isReqOf c s₁ t₁) = 0 :=
          countP_req_zero_of_tok
            (fun f r t₂ i hm => hinv.htokReq f r t₂ i (hmemq' _ hm)) hctr
        have hz2 : q'.countP (isRespOf c s₁ t₁) = 0 :=
          countP_resp_zero_of_tok
            (fun f r b₂ t₂ i hm => hinv.htokResp f r b₂ t₂ i (hmemq' _ hm)) hctr
        have hcnt : cl'.resp_from.count s₁ ≤ 1 :=
          List.nodup_iff_count_le_one.mp hnd s₁
        rw [hz1, hz2, if_pos htc]
        omega
      · rw [if_neg htc]
        have hold := hinv.huniq c cl0 s₁ t₁ hcomp
        unfold pend reqN respN at hold
        rw [hpop, List.countP_append, List.countP_append] at hold
        rw [List.Perm.countP_eq (isReqOf c s₁ t₁) hq',
            List.Perm.countP_eq (isRespOf c s₁ t₁) hq']
        omega
    · have hold := hinv.huniq c cl s₁ t₁ h
      unfold pend reqN respN at hold ⊢
      rw [hpop, List.countP_append, List.countP_append] at hold
      rw [List.Perm.countP_eq (isReqOf c s₁ t₁) hq',
          List.Perm.countP_eq (isRespOf c s₁ t₁) hq']
      omega
  · intro c cl hcl
    rcases (hclAt c cl).mp hcl with ⟨rfl, rfl⟩ | ⟨_, h⟩
    · exact hnd
    · exact hinv.hnodup c cl h
  · intro c cl hcl
    rcases (hclAt c cl).mp hcl with ⟨rfl, rfl⟩ | ⟨_, h⟩
    · simp [hcl', hinv.hlenEq c cl0 hcomp]
    · exact hinv.hlenEq c cl h

theorem step_inv_client_fail {σ : Sys} (hinv : Inv σ) {rest : List Entry}
    {sv c0 : Nat} {b : Bool} {t rid : Nat}
    (hpop : σ.in_flight = rest ++ [(sv, c0, Message.Response b t rid)])
    {cl0 : Client} (hcomp : σ.computers[c0]? = some (Computer.client cl0))
    {q' : List Entry}
    (hq' : q'.Perm (rest ++ (List.range N_SERVERS).map
      fun i => (c0, i, Message.Request σ.ctr (rid + 1)))) :
    Inv ⟨σ.computers.set c0 (Computer.client ⟨rid, σ.ctr, [], []⟩),
      q', σ.ctr + 1⟩ := by
  set cl' : Client := ⟨rid, σ.ctr, [], []⟩ with hcl'
  have hc0r := client_idx_range hinv hcomp
  have hmemrest : ∀ e : Entry, e ∈ rest → e ∈ σ.in_flight := by
    intro e he; rw [hpop]; exact List.mem_append_left _ he
  have hmemq' : ∀ e : Entry, e ∈ q' →
      e ∈ σ.in_flight ∨ ∃ i, i < N_SERVERS ∧
        e = (c0, i, Message.Request σ.ctr (rid + 1)) := by
    intro e he
    rcases List.mem_append.mp (hq'.mem_iff.mp he) with hr | hp
    · exact Or.inl (hmemrest _ hr)
    · right
      obtain ⟨i, hi, rfl⟩ := List.mem_map.mp hp
      exact ⟨i, List.mem_range.mp hi, rfl⟩
  have hclAt := isClientAt_update hinv hcomp cl' q' (σ.ctr + 1)
  have hsh := shape_update hinv hcomp cl' q' (σ.ctr + 1)
  refine ⟨?_, hsh.1, hsh.2, ?_, ?_, ?_, ?_, ?_, ?_, ?_, ?_, ?_, ?_, ?_⟩
  · rw [List.length_set, hinv.hlen]
  · intro f r t₁ i hm
    rcases hmemq' _ hm with hr | ⟨i₀, hi₀, he⟩
    · exact hinv.hwfReq _ _ _ _ hr
    · simp only [Prod.mk.injEq, Message.Request.injEq] at he
      obtain ⟨h1, h2, _, _⟩ := he
      rw [h1, h2]
      exact ⟨hi₀, hc0r.1, hc0r.2⟩
  · intro f r b₁ t₁ i hm
    rcases hmemq' _ hm with hr | ⟨i₀, hi₀, he⟩
    · exact hinv.hwfResp _ _ _ _ _ hr
    · simp at he
  · intro f r t₁ i hm
    rcases hmemq' _ hm with hr | ⟨i₀, hi₀, he⟩
    · exact Nat.lt_succ_of_lt (hinv.htokReq _ _ _ _ hr)
    · simp only [Prod.mk.injEq, Message.Request.injEq] at he
      obtain ⟨_, _, h3, _⟩ := he
      rw [h3]
      exact Nat.lt_succ_self _
  · intro f r b₁ t₁ i hm
    rcases hmemq' _ hm with hr | ⟨i₀, hi₀, he⟩
    · exact Nat.lt_succ_of_lt (hinv.htokResp _ _ _ _ _ hr)
    · simp at he
  · intro c cl hcl
    rcases (hclAt c cl).mp hcl with ⟨rfl, rfl⟩ | ⟨_, h⟩
    · exact Nat.lt_succ_self _
    · exact Nat.lt_succ_of_lt (hinv.huuid c cl h)
  · intro c cl s₁ t₁ i hcl hm ht₁
    rcases (hclAt c cl).mp hcl with ⟨rfl, rfl⟩ | ⟨hne, h⟩
    · rcases hmemq' _ hm with hr | ⟨i₀, hi₀, he⟩
      · have := hinv.htokReq _ _ _ _ hr
        rw [ht₁] at this
        simp only [hcl'] at this
        omega
      · simp only [Prod.mk.injEq, Message.Request.injEq] at he
        obtain ⟨_, _, _, h4⟩ := he
        rw [h4]
    · rcases hmemq' _ hm with hr | ⟨i₀, hi₀, he⟩
      · exact hinv.hreqCur c cl s₁ t₁ i h hr ht₁
      · simp only [Prod.mk.injEq, Message.Request.injEq] at he
        exact absurd he.1 hne
  · intro c cl s₁ t₁ i hcl hm ht₁
    rcases hmemq' _ hm with hr | ⟨i₀, hi₀, he⟩
    · rcases (hclAt c cl).mp hcl with ⟨rfl, rfl⟩ | ⟨_, h⟩
      · have := hinv.htokResp _ _ _ _ _ hr
        rw [ht₁] at this
        simp only [hcl'] at this
        omega
      · exact hinv.hrespOk c cl s₁ t₁ i h hr ht₁
    · simp at he
  · intro c cl s₁ t₁ i hcl hm ht₁
    rcases hmemq' _ hm with hr | ⟨i₀, hi₀, he⟩
    · rcases (hclAt c cl).mp hcl with ⟨rfl, rfl⟩ | ⟨_, h⟩
      · have := hinv.htokResp _ _ _ _ _ hr
        rw [ht₁] at this
        simp only [hcl'] at this
        omega
      · exact hinv.hrespErr c cl s₁ t₁ i h hr ht₁
    · simp at he
  · intro c cl s₁ t₁ hcl
    have hqreq : q'.countP (isReqOf c s₁ t₁) =
        rest.countP (isReqOf c s₁ t₁) +
          (if c0 = c ∧ s₁ < N_SERVERS ∧ t₁ = σ.ctr then 1 else 0) := by
      rw [List.Perm.countP_eq (isReqOf c s₁ t₁) hq', List.countP_append,
        countP_req_range]
    have hqresp : q'.countP (isRespOf c s₁ t₁) =
        rest.countP (isRespOf c s₁ t₁) := by
      rw [List.Perm.countP_eq (isRespOf c s₁ t₁) hq', List.countP_append,
        countP_resp_range_zero, Nat.add_zero]
    rcases (hclAt c cl).mp hcl with ⟨rfl, rfl⟩ | ⟨hne, h⟩
    · have hold := hinv.huniq c cl0 s₁ t₁ hcomp
      unfold pend reqN respN at hold ⊢
      rw [hpop, List.countP_append, List.countP_append] at hold
      rw [hqreq, hqresp]
      by_cases htc : t₁ = cl'.current_uuid
      · have hctr : t₁ = σ.ctr := by simp only [hcl'] at htc; exact htc
        have hz1 : rest.countP (isReqOf c s₁ t₁) = 0 :=
          countP_req_zero_of_tok
            (fun f r t₂ i hm => hinv.htokReq f r t₂ i (hmemrest _ hm)) (by omega)
        have hz2 : rest.countP (isRespOf c s₁ t₁) = 0 :=
          countP_resp_zero_of_tok
            (fun f r b₂ t₂ i hm => hinv.htokResp f r b₂ t₂ i (hmemrest _ hm))
            (by omega)
        rw [hz1, hz2, if_pos htc]
        simp only [hcl', List.count_nil]
        split_ifs <;> omega
      · rw [if_neg htc]
        have hnotc : ¬(c = c ∧ s₁ < N_SERVERS ∧ t₁ = σ.ctr) := by
          rintro ⟨_, _, hctr⟩
          apply htc
          simp only [hcl']
          exact hctr
        rw [if_neg hnotc]
        omega
    · have hold := hinv.huniq c cl s₁ t₁ h
      unfold pend reqN respN at hold ⊢
      rw [hpop, List.countP_append, List.countP_append] at hold
      rw [hqreq, hqresp]
      have hnotc : ¬(c0 = c ∧ s₁ < N_SERVERS ∧ t₁ = σ.ctr) := by
        rintro ⟨hce, _, _⟩
        exact hne hce.symm
      rw [if_neg hnotc]
      omega
  · intro c cl hcl
    rcases (hclAt c cl).mp hcl with ⟨rfl, rfl⟩ | ⟨_, h⟩
    · exact List.nodup_nil
    · exact hinv.hnodup c cl h
  · intro c cl hcl
    rcases (hclAt c cl).mp hcl with ⟨rfl, rfl⟩ | ⟨_, h⟩
    · rfl
    · exact hinv.hlenEq c cl h

/-- `Inv` is preserved by every delivery-loop iteration. -/
theorem step_inv {σ σ' : Sys} (hst : Step σ σ') (hinv : Inv σ) : Inv σ' := by
  cases hst with
  | deliver rest sender recipient message comp comp' outbound drops q'
      hpop hcomp hrecv hperm =>
    rw [deliver_outbound_eq] at hperm
    cases comp with
    | server s =>
      obtain ⟨uuid, pid, rfl, hcomp', hout⟩ := receive_server_some hrecv
      rcases propose_cases s sender uuid pid with ⟨hacc, hp⟩ | ⟨hrej, hp⟩
      · have hc' : comp' = Computer.server ⟨pid⟩ := by rw [hcomp', hp]
        have ho : outbound = [(sender, Message.Response true uuid pid)] := by
          rw [hout, hp]
        subst hc'; subst ho
        simp only [List.map_cons, List.map_nil] at hperm
        exact step_inv_server hinv hpop hcomp ⟨pid⟩ (fun _ => rfl)
          (fun h => absurd h (by simp)) hperm
      · have hc' : comp' = Computer.server s := by rw [hcomp', hp]
        have ho : outbound = [(sender, Message.Response false uuid s.max_id)] := by
          rw [hout, hp]
        subst hc'; subst ho
        simp only [List.map_cons, List.map_nil] at hperm
        exact step_inv_server hinv hpop hcomp s (fun h => absurd h (by simp))
          (fun _ => hrej) hperm
    | client cl0 =>
      obtain ⟨b, uuid, rid, cl', rfl, hcr, hcomp'⟩ := receive_client_some hrecv
      subst hcomp'
      rcases client_receive_cases hcr with ⟨hne, hcl, hout⟩ |
        ⟨ht, hb, hid, ⟨hth, hcl, hout⟩ | ⟨hth, hcl, hout⟩⟩ |
        ⟨ht, hb, ⟨hth, hcl, hout⟩ | ⟨hth, hcl, hout⟩⟩
      · subst hcl; subst hout
        simp only [List.map_nil, List.append_nil] at hperm
        exact step_inv_client_inert hinv hpop hcomp hperm
      · subst hcl; subst hout
        simp only [List.map_nil, List.append_nil] at hperm
        exact step_inv_client_success hinv hpop hcomp ht rid
          (TallyEntry.ok rid) hperm
      · subst hcl; subst hout
        simp only [List.map_nil, List.append_nil] at hperm
        exact step_inv_client_push hinv hpop hcomp ht
          (TallyEntry.ok rid) hperm
      · subst hcl; subst hout
        simp only [List.map_map, Function.comp] at hperm
        exact step_inv_client_fail hinv hpop hcomp hperm
      · subst hcl; subst hout
        simp only [List.map_nil, List.append_nil] at hperm
        exact step_inv_client_push hinv hpop hcomp ht
          (TallyEntry.err rid) hperm

theorem inv_seed_round {σ : Sys} (hinv : Inv σ) {c0 : Nat} {cl0 : Client}
    (hcomp : σ.computers[c0]? = some (Computer.client cl0)) :
    Inv ⟨σ.computers.set c0 (Computer.client
        { cl0 with current_uuid := σ.ctr, current_responses := [], resp_from := [] }),
      σ.in_flight ++ (List.range N_SERVERS).map
        (fun i => (c0, i, Message.Request σ.ctr (cl0.last_id + 1))),
      σ.ctr + 1⟩ := by
  set cl' : Client :=
    { cl0 with current_uuid := σ.ctr, current_responses := [], resp_from := [] }
    with hcl'
  set q' : List Entry := σ.in_flight ++ (List.range N_SERVERS).map
    (fun i => (c0, i, Message.Request σ.ctr (cl0.last_id + 1))) with hq'
  have hc0r := client_idx_range hinv hcomp
  have hmemq' : ∀ e : Entry, e ∈ q' →
      e ∈ σ.in_flight ∨ ∃ i, i < N_SERVERS ∧
        e = (c0, i, Message.Request σ.ctr (cl0.last_id + 1)) := by
    intro e he
    rcases List.mem_append.mp he with hr | hp
    · exact Or.inl hr
    · right
      obtain ⟨i, hi, rfl⟩ := List.mem_map.mp hp
      exact ⟨i, List.mem_range.mp hi, rfl⟩
  have hclAt := isClientAt_update hinv hcomp cl' q' (σ.ctr + 1)
  have hsh := shape_update hinv hcomp cl' q' (σ.ctr + 1)
  refine ⟨?_, hsh.1, hsh.2, ?_, ?_, ?_, ?_, ?_, ?_, ?_, ?_, ?_, ?_, ?_⟩
  · rw [List.length_set, hinv.hlen]
  · intro f r t₁ i hm
    rcases hmemq' _ hm with hr | ⟨i₀, hi₀, he⟩
    · exact hinv.hwfReq _ _ _ _ hr
    · simp only [Prod.mk.injEq, Message.Request.injEq] at he
      obtain ⟨h1, h2, _, _⟩ := he
      rw [h1, h2]
      exact ⟨hi₀, hc0r.1, hc0r.2⟩
  · intro f r b₁ t₁ i hm
    rcases hmemq' _ hm with hr | ⟨i₀, hi₀, he⟩
    · exact hinv.hwfResp _ _ _ _ _ hr
    · simp at he
  · intro f r t₁ i hm
    rcases hmemq' _ hm with hr | ⟨i₀, hi₀, he⟩
    · exact Nat.lt_succ_of_lt (hinv.htokReq _ _ _ _ hr)
    · simp only [Prod.mk.injEq, Message.Request.injEq] at he
      obtain ⟨_, _, h3, _⟩ := he
      rw [h3]
      exact Nat.lt_succ_self _
  · intro f r b₁ t₁ i hm
    rcases hmemq' _ hm with hr | ⟨i₀, hi₀, he⟩
    · exact Nat.lt_succ_of_lt (hinv.htokResp _ _ _ _ _ hr)
    · simp at he
  · intro c cl hcl
    rcases (hclAt c cl).mp hcl with ⟨rfl, rfl⟩ | ⟨_, h⟩
    · exact Nat.lt_succ_self _
    · exact Nat.lt_succ_of_lt (hinv.huuid c cl h)
  · intro c cl s₁ t₁ i hcl hm ht₁
    rcases (hclAt c cl).mp hcl with ⟨rfl, rfl⟩ | ⟨hne, h⟩
    · rcases hmemq' _ hm with hr | ⟨i₀, hi₀, he⟩
      · have := hinv.htokReq _ _ _ _ hr
        rw [ht₁] at this
        simp only [hcl'] at this
        omega
      · simp only [Prod.mk.injEq, Message.Request.injEq] at he
        obtain ⟨_, _, _, h4⟩ := he
        rw [h4]
    · rcases hmemq' _ hm with hr | ⟨i₀, hi₀, he⟩
      · exact hinv.hreqCur c cl s₁ t₁ i h hr ht₁
      · simp only [Prod.mk.injEq, Message.Request.injEq] at he
        exact absurd he.1 hne
  · intro c cl s₁ t₁ i hcl hm ht₁
    rcases hmemq' _ hm with hr | ⟨i₀, hi₀, he⟩
    · rcases (hclAt c cl).mp hcl with ⟨rfl, rfl⟩ | ⟨_, h⟩
      · have := hinv.htokResp _ _ _ _ _ hr
        rw [ht₁] at this
        simp only [hcl'] at this
        omega
      · exact hinv.hrespOk c cl s₁ t₁ i h hr ht₁
    · simp at he
  · intro c cl s₁ t₁ i hcl hm ht₁
    rcases hmemq' _ hm with hr | ⟨i₀, hi₀, he⟩
    · rcases (hclAt c cl).mp hcl with ⟨rfl, rfl⟩ | ⟨_, h⟩
      · have := hinv.htokResp _ _ _ _ _ hr
        rw [ht₁] at this
        simp only [hcl'] at this
        omega
      · exact hinv.hrespErr c cl s₁ t₁ i h hr ht₁
    · simp at he
  · intro c cl s₁ t₁ hcl
    have hqreq : q'.countP (isReqOf c s₁ t₁) =
        σ.in_flight.countP (isReqOf c s₁ t₁) +
          (if c0 = c ∧ s₁ < N_SERVERS ∧ t₁ = σ.ctr then 1 else 0) := by
      rw [hq', List.countP_append, countP_req_range]
    have hqresp : q'.countP (isRespOf c s₁ t₁) =
        σ.in_flight.countP (isRespOf c s₁ t₁) := by
      rw [hq', List.countP_append, countP_resp_range_zero, Nat.add_zero]
    rcases (hclAt c cl).mp hcl with ⟨rfl, rfl⟩ | ⟨hne, h⟩
    · have hold := hinv.huniq c cl0 s₁ t₁ hcomp
      unfold pend reqN respN at hold ⊢
      rw [hqreq, hqresp]
      by_cases htc : t₁ = cl'.current_uuid
      · have hctr : t₁ = σ.ctr := by simp only [hcl'] at htc; exact htc
        have hz1 : σ.in_flight.countP (isReqOf c s₁ t₁) = 0 :=
          countP_req_zero_of_tok
            (fun f r t₂ i hm => hinv.htokReq f r t₂ i hm) (by omega)
        have hz2 : σ.in_flight.countP (isRespOf c s₁ t₁) = 0 :=
          countP_resp_zero_of_tok
            (fun f r b₂ t₂ i hm => hinv.htokResp f r b₂ t₂ i hm) (by omega)
        rw [hz1, hz2, if_pos htc]
        simp only [hcl', List.count_nil]
        split_ifs <;> omega
      · rw [if_neg htc]
        have hnotc : ¬(c = c ∧ s₁ < N_SERVERS ∧ t₁ = σ.ctr) := by
          rintro ⟨_, _, hctr⟩
          apply htc
          simp only [hcl']
          exact hctr
        rw [if_neg hnotc]
        omega
    · have hold := hinv.huniq c cl s₁ t₁ h
      unfold pend reqN respN at hold ⊢
      rw [hqreq, hqresp]
      have hnotc : ¬(c0 = c ∧ s₁ < N_SERVERS ∧ t₁ = σ.ctr) := by
        rintro ⟨hce, _, _⟩
        exact hne hce.symm
      rw [if_neg hnotc]
      omega
  · intro c cl hcl
    rcases (hclAt c cl).mp hcl with ⟨rfl, rfl⟩ | ⟨_, h⟩
    · exact List.nodup_nil
    · exact hinv.hnodup c cl h
  · intro c cl hcl
    rcases (hclAt c cl).mp hcl with ⟨rfl, rfl⟩ | ⟨_, h⟩
    · rfl
    · exact hinv.hlenEq c cl h

/-- seeding a client's first round preserves the invariant -/
theorem seed_inv {σ : Sys} (hinv : Inv σ) (sender : Nat) :
    Inv (seedClient σ sender) := by
  unfold seedClient
  cases hc : σ.computers[sender]? with
  | none => exact hinv
  | some comp =>
    cases comp with
    | server s => exact hinv
    | client c =>
      simp only [Client.generate_requests]
      exact inv_seed_round hinv hc

theorem inv_sysStart : Inv sysStart := by
  have hget : ∀ i : Nat, sysStart.computers[i]? =
      if i < N_SERVERS then some (Computer.server ⟨0⟩)
      else if i < N_SERVERS + N_CLIENTS then some (Computer.client ⟨0, 0, [], []⟩)
      else none := by
    intro i
    show (List.replicate N_SERVERS (Computer.server ⟨0⟩) ++
      List.replicate N_CLIENTS (Computer.client ⟨0, 0, [], []⟩))[i]? = _
    by_cases h1 : i < N_SERVERS
    · rw [List.getElem?_append_left (by rw [List.length_replicate]; exact h1)]
      rw [List.getElem?_replicate, if_pos h1, if_pos h1]
    · rw [List.getElem?_append_right
        (by rw [List.length_replicate]; exact Nat.le_of_not_lt h1)]
      rw [List.getElem?_replicate, List.length_replicate]
      by_cases h2 : i < N_SERVERS + N_CLIENTS
      · rw [if_pos (by omega), if_neg h1, if_pos h2]
      · rw [if_neg (by omega), if_neg h1, if_neg h2]
  have hclS : ∀ i cl, IsClientAt sysStart i cl → cl = ⟨0, 0, [], []⟩ := by
    intro i cl hcl
    rw [IsClientAt, hget i] at hcl
    split_ifs at hcl <;> simp at hcl
    exact hcl.symm
  refine ⟨?_, ?_, ?_, ?_, ?_, ?_, ?_, ?_, ?_, ?_, ?_, ?_, ?_, ?_⟩
  · simp [sysStart, N_SERVERS, N_CLIENTS]
  · intro i hi
    exact ⟨⟨0⟩, by rw [hget i, if_pos hi]⟩
  · intro i h10 h25
    exact ⟨⟨0, 0, [], []⟩, by rw [hget i, if_neg (by omega), if_pos h25]⟩
  · intro f r t i hm
    simp [sysStart] at hm
  · intro f r b t i hm
    simp [sysStart] at hm
  · intro f r t i hm
    simp [sysStart] at hm
  · intro f r b t i hm
    simp [sysStart] at hm
  · intro c cl hcl
    rw [hclS c cl hcl]
    exact Nat.zero_lt_one
  · intro c cl s₁ t i hcl hm ht
    simp [sysStart] at hm
  · intro c cl s₁ t i hcl hm ht
    simp [sysStart] at hm
  · intro c cl s₁ t i hcl hm ht
    simp [sysStart] at hm
  · intro c cl s₁ t hcl
    rw [hclS c cl hcl]
    unfold pend reqN respN
    show List.countP _ [] + List.countP _ [] + _ ≤ 1
    simp
  · intro c cl hcl
    rw [hclS c cl hcl]
    exact List.nodup_nil
  · intro c cl hcl
    rw [hclS c cl hcl]
    rfl

theorem inv_initSys : Inv initSys := by
  have hfold : ∀ (l : List Nat) (σ : Sys), Inv σ →
      Inv (l.foldl (fun τ k => seedClient τ (N_SERVERS + k)) σ) := by
    intro l
    induction l with
    | nil => exact fun σ h => h
    | cons hd tl ih =>
      intro σ h
      exact ih _ (seed_inv h (N_SERVERS + hd))
  exact hfold _ _ inv_sysStart

/-- every state the delivery loop reaches satisfies the invariant -/
theorem reach_inv {σ : Sys} (h : Reachable σ) : Inv σ := by
  induction h with
  | refl => exact inv_initSys
  | tail hsteps hstep ih => exact step_inv hstep ih

theorem steps_inv {σ σ' : Sys} (h : Steps σ σ') (hinv : Inv σ) : Inv σ' := by
  induction h with
  | refl => exact hinv
  | tail hsteps hstep ih => exact step_inv hstep ih

theorem append_singleton_inj {α : Type} {l₁ l₂ : List α} {a b : α}
    (h : l₁ ++ [a] = l₂ ++ [b]) : l₁ = l₂ ∧ a = b := by
  have h1 := congrArg List.dropLast h
  have h2 := congrArg List.getLast? h
  rw [List.dropLast_concat, List.dropLast_concat] at h1
  rw [List.getLast?_concat, List.getLast?_concat] at h2
  exact ⟨h1, Option.some.inj h2⟩

theorem isClientAt_unique {σ : Sys} {c : Nat} {cl cl₂ : Client}
    (h1 : IsClientAt σ c cl) (h2 : IsClientAt σ c cl₂) : cl = cl₂ := by
  rw [IsClientAt] at h1 h2
  rw [h1] at h2
  exact Computer.client.inj (Option.some.inj h2)

/-- full description of a quorum-success transition of a reachable state -/
theorem successStep_elim {σ σ' : Sys} {c t : Nat} (hinv : Inv σ)
    (hss : SuccessStep σ σ' c t) :
    ∃ rest s id cl, σ.in_flight = rest ++ [(s, c, Message.Response true t id)] ∧
      IsClientAt σ c cl ∧ cl.current_uuid = t ∧ id = cl.last_id + 1 ∧
      okCount (cl.current_responses ++ [TallyEntry.ok id]) > N_SERVERS / 2 ∧
      IsClientAt σ' c ⟨id, σ.ctr, cl.current_responses ++ [TallyEntry.ok id],
        cl.resp_from ++ [s]⟩ := by
  obtain ⟨hst, rest, s, id, cl, cl', hpop, hcl, hcl', ht, hlast⟩ := hss
  cases hst with
  | deliver rest₂ sender recipient message comp comp' outbound drops q'
      hpop₂ hcomp hrecv hperm =>
    rw [hpop] at hpop₂
    obtain ⟨hrest, hent⟩ := append_singleton_inj hpop₂
    simp only [Prod.mk.injEq] at hent
    obtain ⟨hs, hc, hm⟩ := hent
    subst hrest; subst hs; subst hc; subst hm
    have hcompeq : comp = Computer.client cl := by
      rw [IsClientAt] at hcl
      rw [hcl] at hcomp
      exact (Option.some.inj hcomp).symm
    subst hcompeq
    obtain ⟨b, uuid, rid, cl₂, hmsg, hcr, hcomp'⟩ := receive_client_some hrecv
    simp only [Message.Response.injEq] at hmsg
    obtain ⟨hb, huu, hrid⟩ := hmsg
    subst hb; subst huu; subst hrid
    subst hcomp'
    have hlt : c < σ.computers.length := by
      rw [hinv.hlen]
      exact (client_idx_range hinv hcl).2
    have hcl₂at : IsClientAt ⟨σ.computers.set c (Computer.client cl₂),
        q', σ.ctr + 1⟩ c cl₂ := (isClientAt_set_self hlt).mpr rfl
    have hcl'eq : cl' = cl₂ := isClientAt_unique hcl' hcl₂at
    subst hcl'eq
    rcases client_receive_cases hcr with ⟨hne, hcl2, _⟩ |
      ⟨ht₂, _, hid, ⟨hth, hcl2, _⟩ | ⟨hth, hcl2, _⟩⟩ |
      ⟨_, hb, _⟩
    · exact absurd ht.symm hne
    · subst hcl2
      exact ⟨rest, s, id, cl, hpop, hcl, ht, hid, hth, hcl₂at⟩
    · exact absurd rfl (by rw [hcl2] at hlast; exact hlast)
    · exact absurd hb (by simp)

/-- a delivery step can only raise a server's `max_id` -/
theorem server_step_mono {σ σ' : Sys} (hst : Step σ σ') {i : Nat} {s : Server}
    (hsv : IsServerAt σ i s) :
    ∃ s', IsServerAt σ' i s' ∧ s.max_id ≤ s'.max_id := by
  cases hst with
  | deliver rest sender recipient message comp comp' outbound drops q'
      hpop hcomp hrecv hperm =>
    by_cases hri : recipient = i
    · subst hri
      rw [IsServerAt] at hsv
      have hcompeq : comp = Computer.server s := by
        rw [hsv] at hcomp
        exact (Option.some.inj hcomp).symm
      subst hcompeq
      obtain ⟨uuid, pid, hm, hcomp', hout⟩ := receive_server_some hrecv
      have hlt : recipient < σ.computers.length :=
        (List.getElem?_eq_some_iff.mp hsv).1
      rcases propose_cases s sender uuid pid with ⟨hacc, hp⟩ | ⟨hrej, hp⟩
      · refine ⟨⟨pid⟩, ?_, Nat.le_of_lt hacc⟩
        rw [IsServerAt]
        show (σ.computers.set recipient comp')[recipient]? = _
        rw [List.getElem?_set_self hlt, hcomp', hp]
      · refine ⟨s, ?_, Nat.le_refl _⟩
        rw [IsServerAt]
        show (σ.computers.set recipient comp')[recipient]? = _
        rw [List.getElem?_set_self hlt, hcomp', hp]
    · refine ⟨s, ?_, Nat.le_refl _⟩
      rw [IsServerAt]
      show (σ.computers.set recipient comp')[i]? = _
      rw [List.getElem?_set_ne hri]
      exact hsv

/-- a client survives a delivery step and its live token never goes back -/
theorem client_step_mono {σ σ' : Sys} (hst : Step σ σ') (hinv : Inv σ) {c : Nat}
    {cl : Client} (hcl : IsClientAt σ c cl) :
    ∃ cl', IsClientAt σ' c cl' ∧ cl.current_uuid ≤ cl'.current_uuid := by
  cases hst with
  | deliver rest sender recipient message comp comp' outbound drops q'
      hpop hcomp hrecv hperm =>
    by_cases hrc : recipient = c
    · subst hrc
      have hcompeq : comp = Computer.client cl := by
        rw [IsClientAt] at hcl
        rw [hcl] at hcomp
        exact (Option.some.inj hcomp).symm
      subst hcompeq
      obtain ⟨b, uuid, rid, cl', hm, hcr, hcomp'⟩ := receive_client_some hrecv
      subst hcomp'
      have hlt : recipient < σ.computers.length := by
        rw [hinv.hlen]
        exact (client_idx_range hinv hcl).2
      refine ⟨cl', (isClientAt_set_self hlt).mpr rfl, ?_⟩
      have huu : cl.current_uuid < σ.ctr := hinv.huuid recipient cl hcl
      rcases client_receive_cases hcr with ⟨_, hcl2, _⟩ |
        ⟨_, _, _, ⟨_, hcl2, _⟩ | ⟨_, hcl2, _⟩⟩ |
        ⟨_, _, ⟨_, hcl2, _⟩ | ⟨_, hcl2, _⟩⟩ <;> rw [hcl2] <;>
        first
        | exact Nat.le_refl _
        | exact Nat.le_of_lt huu
    · exact ⟨cl, (isClientAt_set_ne hrc).mpr hcl, Nat.le_refl _⟩

theorem client_persist_mono {σ σ' : Sys} (h : Steps σ σ') (hinv : Inv σ) {c : Nat}
    {cl : Client} (hcl : IsClientAt σ c cl) :
    ∃ cl', IsClientAt σ' c cl' ∧ cl.current_uuid ≤ cl'.current_uuid := by
  induction h with
  | refl => exact ⟨cl, hcl, Nat.le_refl _⟩
  | tail hsteps hstep ih =>
    obtain ⟨cl₁, hcl₁, hle₁⟩ := ih
    obtain ⟨cl₂, hcl₂, hle₂⟩ := client_step_mono hstep (steps_inv hsteps hinv) hcl₁
    exact ⟨cl₂, hcl₂, Nat.le_trans hle₁ hle₂⟩

/-- a client whose token-matched accepted responses carry the proposed id
never panics in `receive` -/
theorem client_receive_total (cl : Client) (sender : Nat) (b : Bool)
    (t id fresh : Nat) (hok : b = true → t = cl.current_uuid → id = cl.last_id + 1) :
    (cl.receive sender b t id fresh).isSome = true := by
  unfold Client.receive
  by_cases h1 : t ≠ cl.current_uuid
  · simp [h1]
  · push_neg at h1
    rw [if_neg (by simp [h1])]
    cases b with
    | true =>
      rw [if_pos rfl, if_pos (hok rfl h1)]
      have hid := hok rfl h1
      by_cases hth : okCount (cl.current_responses ++ [TallyEntry.ok id]) > N_SERVERS / 2
      · rw [if_pos hth]
        rw [if_pos (show cl.last_id < id by omega)]
        rfl
      · rw [if_neg hth]
        rfl
    | false =>
      rw [if_neg (by simp)]
      by_cases hth : errCount (cl.current_responses ++ [TallyEntry.err id]) > N_SERVERS / 2
      · rw [if_pos hth]
        rfl
      · rw [if_neg hth]
        rfl

theorem okSenders_sublist_aux : ∀ (l₁ : List Nat) (l₂ : List TallyEntry),
    List.Sublist
      ((l₁.zip l₂).filterMap fun p => if p.2.isOk then some p.1 else none) l₁ := by
  intro l₁
  induction l₁ with
  | nil => intro l₂; simp
  | cons a l ih =>
    intro l₂
    cases l₂ with
    | nil => simp
    | cons e l₂' =>
      rw [List.zip_cons_cons]
      cases he : e.isOk
      · simp only [List.filterMap_cons, he]
        exact List.Sublist.cons _ (ih l₂')
      · simp only [List.filterMap_cons, he]
        exact List.Sublist.cons₂ _ (ih l₂')

theorem okSenders_length_aux : ∀ (l₁ : List Nat) (l₂ : List TallyEntry),
    l₁.length = l₂.length →
    ((l₁.zip l₂).filterMap fun p => if p.2.isOk then some p.1 else none).length =
      okCount l₂ := by
  intro l₁
  induction l₁ with
  | nil =>
    intro l₂ hlen
    cases l₂ with
    | nil => rfl
    | cons e l₂' => simp at hlen
  | cons a l ih =>
    intro l₂ hlen
    cases l₂ with
    | nil => simp at hlen
    | cons e l₂' =>
      rw [List.zip_cons_cons]
      simp only [List.length_cons, Nat.succ.injEq] at hlen
      have hcnt : okCount (e :: l₂') = okCount l₂' + (if e.isOk then 1 else 0) := by
        rw [okCount, okCount, List.countP_cons]
      cases he : e.isOk
      · simp only [List.filterMap_cons, he, Bool.false_eq_true, if_false]
        rw [ih l₂' hlen, hcnt, he]
        simp
      · simp only [List.filterMap_cons, he, if_true, List.length_cons]
        rw [ih l₂' hlen, hcnt, he]
        simp

theorem okSenders_length (cl : Client)
    (h : cl.resp_from.length = cl.current_responses.length) :
    (okSenders cl).length = okCount cl.current_responses :=
  okSenders_length_aux _ _ h

theorem servers_persist_mono {σ σ' : Sys} (h : Steps σ σ') {i : Nat} {s : Server}
    (hs : IsServerAt σ i s) :
    ∃ s', IsServerAt σ' i s' ∧ s.max_id ≤ s'.max_id := by
  induction h with
  | refl => exact ⟨s, hs, Nat.le_refl _⟩
  | tail hsteps hstep ih =>
    obtain ⟨s₁, hs₁, hle₁⟩ := ih
    obtain ⟨s₂, hs₂, hle₂⟩ := server_step_mono hstep hs₁
    exact ⟨s₂, hs₂, Nat.le_trans hle₁ hle₂⟩

/-! ## A concrete run (identity shuffles), used to witness the theorems:
after 12 delivery-loop iterations from `initSys`, client 24 has collected
six acceptances of its proposal `1` (round token 15) from servers
9,8,7,6,5,4 and commits; by iteration 21 a rejection of client 23's
proposal is in flight. -/

set_option maxRecDepth 20000

theorem reach_wit11 : Reachable (wit 11) := reach_wit (by decide)

theorem reach_wit21 : Reachable (wit 21) := reach_wit (by decide)

theorem step_wit11 : Step (wit 11) (wit 12) := wit_step 11 (by decide)

theorem succ_wit11 : SuccessStep (wit 11) (wit 12) 24 15 := by
  refine ⟨step_wit11, (wit 11).in_flight.dropLast, 4, 1,
    ⟨0, 15, [.ok 1, .ok 1, .ok 1, .ok 1, .ok 1], [9, 8, 7, 6, 5]⟩,
    ⟨1, 27, [.ok 1, .ok 1, .ok 1, .ok 1, .ok 1, .ok 1], [9, 8, 7, 6, 5, 4]⟩,
    ?_, ?_, ?_, ?_, ?_⟩ <;> decide

/-! ## The claims -/

/-- C2 (code bug): the specification says each reply is discarded with the
configured drop probability and otherwise enqueued, so some executions
lose replies.  In the source the loss trial `rng.gen_ratio(1, 10)` is
computed but its `continue` is commented out (`// XXX continue;`), so the
enqueue loop provably ignores the drop decisions: every reply is enqueued
for every outcome of the trials, and no execution ever discards one — the
code contradicts its own `simulates loss` comment. -/
theorem loss_branch_inert :
    (∀ (who : Nat) (outbound : List (Nat × Message)) (drops : List Bool)
      (queue : List Entry),
      deliver_outbound who outbound drops queue =
        queue ++ outbound.map fun p => (who, p.1, p.2)) ∧
    deliver_outbound 9 [(24, Message.Response true 15 1)] [true] [] =
      [(9, 24, Message.Response true 15 1)] :=
  ⟨deliver_outbound_eq, rfl⟩

/-- C4 (confirmed): `Server::propose` is total and returns exactly one
response to the sender carrying the request's token: it accepts with
`id = proposed_id` and raises `highest_accepted_id` iff the proposal is
strictly larger, and otherwise (equality included, as in Scenario C with
ceiling 5) leaves the state unchanged and rejects with the ceiling. -/
theorem propose_spec :
    (∀ (s : Server) (sender uuid id : Nat),
      s.propose sender uuid id =
        (if s.max_id < id then (⟨id⟩ : Server) else s,
         [(sender, if s.max_id < id then Message.Response true uuid id
                   else Message.Response false uuid s.max_id)])) ∧
    (∀ (sender uuid : Nat),
      Server.propose ⟨5⟩ sender uuid 5 =
        (⟨5⟩, [(sender, Message.Response false uuid 5)])) := by
  constructor
  · intro s sender uuid id
    unfold Server.propose
    by_cases h : s.max_id < id <;> simp [h]
  · intro sender uuid
    unfold Server.propose
    simp

/-- C6 (confirmed): a response whose token differs from the client's
active token is inert: `Client::receive` returns no messages and leaves
the whole client state (committed id, active token, tally) unchanged. -/
theorem stale_response_inert : ∀ (cl : Client) (sender : Nat) (success : Bool)
    (uuid id fresh : Nat), uuid ≠ cl.current_uuid →
    cl.receive sender success uuid id fresh = some (cl, []) := by
  intro cl sender success uuid id fresh h
  rw [Client.receive, if_pos h]

theorem stale_response_inert_witness :
    Client.receive ⟨7, 3, [TallyEntry.ok 8], [2]⟩ 5 true 4 8 99 =
      some (⟨7, 3, [TallyEntry.ok 8], [2]⟩, []) :=
  stale_response_inert ⟨7, 3, [TallyEntry.ok 8], [2]⟩ 5 true 4 8 99 (by decide)

/-- C9 (confirmed): starting a round returns exactly one request per
server index `0..N_SERVERS`, all carrying the same fresh token and
proposing `committed_id + 1`, and it clears the tally and replaces
`active_token` with the fresh token. -/
theorem generate_requests_spec : ∀ (cl : Client) (fresh : Nat),
    (cl.generate_requests fresh).1 =
      { cl with current_uuid := fresh, current_responses := [], resp_from := [] } ∧
    (cl.generate_requests fresh).2.length = N_SERVERS ∧
    ∀ s : Nat, ((cl.generate_requests fresh).2)[s]? =
      if s < N_SERVERS then some (s, Message.Request fresh (cl.last_id + 1))
      else none := by
  intro cl fresh
  refine ⟨rfl, by simp [Client.generate_requests], ?_⟩
  intro s
  unfold Client.generate_requests
  simp only [List.getElem?_map]
  by_cases h : s < N_SERVERS
  · rw [List.getElem?_range h, if_pos h]
    rfl
  · rw [List.getElem?_eq_none (by simpa using Nat.le_of_not_lt h), if_neg h]
    rfl

/-- C3 counterexample: a client with baseline 0 and five tallied
rejections that reported ceiling 7 receives the round's sixth rejection
carrying ceiling 3.  The threshold is crossed and the code adopts 3 —
the ceiling of the response that crossed the threshold — although the
highest ceiling reported among the round's rejections is 7. -/
theorem reject_not_highest_ceiling :
    (Client.receive cexClient 5 false 5 3 99).map (fun r => r.1.last_id) =
      some 3 ∧
    maxCeiling (cexClient.current_responses ++ [TallyEntry.err 3]) = 7 ∧
    (3 : Nat) ≠ 7 := by
  refine ⟨by decide, by decide, by decide⟩

/-- C3 (corrected): when the reject-count for the active round first
exceeds `N_SERVERS / 2`, the client adopts the ceiling carried by the
rejection that crossed the threshold (not necessarily the highest
reported one), replaces the active token with a fresh one and clears the
tally — closing the round — and immediately starts a new round proposing
`committed_id + 1` to every server. -/
theorem reject_threshold_spec : ∀ (cl : Client) (sender id fresh : Nat),
    errCount cl.current_responses = N_SERVERS / 2 →
    cl.receive sender false cl.current_uuid id fresh =
      some (⟨id, fresh, [], []⟩,
        (List.range N_SERVERS).map fun i => (i, Message.Request fresh (id + 1))) := by
  intro cl sender id fresh hcnt
  rw [Client.receive, if_neg (by simp), if_neg (by simp),
    if_pos (by rw [errCount_append_err, hcnt]; omega)]
  rfl

theorem reject_threshold_spec_witness :
    errCount cexClient.current_responses = N_SERVERS / 2 ∧
    Client.receive cexClient 5 false cexClient.current_uuid 3 99 =
      some (⟨3, 99, [], []⟩,
        (List.range N_SERVERS).map fun i => (i, Message.Request 99 (3 + 1))) :=
  ⟨by decide, reject_threshold_spec cexClient 5 3 99 (by decide)⟩

/-- C5 (confirmed): a server's `highest_accepted_id` is non-decreasing
over every sequence of delivered messages — no step of the system ever
lowers it. -/
theorem max_id_monotone : ∀ (σ σ' : Sys), Steps σ σ' → ∀ (i : Nat)
    (s s' : Server), IsServerAt σ i s → IsServerAt σ' i s' →
    s.max_id ≤ s'.max_id := by
  intro σ σ' hsteps i s s' h1 h2
  obtain ⟨s₂, hs₂, hle⟩ := servers_persist_mono hsteps h1
  have : s₂ = s' := by
    rw [IsServerAt] at hs₂ h2
    rw [hs₂] at h2
    exact Computer.server.inj (Option.some.inj h2)
  exact this ▸ hle

theorem max_id_monotone_witness : (Server.mk 0).max_id ≤ (Server.mk 1).max_id := by
  have hsteps : Steps (wit 0) (wit 2) :=
    Relation.ReflTransGen.tail (Relation.ReflTransGen.tail
      Relation.ReflTransGen.refl (wit_step 0 (by decide))) (wit_step 1 (by decide))
  exact max_id_monotone (wit 0) (wit 2) hsteps 9 ⟨0⟩ ⟨1⟩ (by decide) (by decide)

/-- C7 (confirmed): on every reachable state of the system as built, no
protocol-corruption fault can fire: every queued message can be delivered
to its addressee without hitting a panic path (so both fatal `assert!`
branches of `Client::receive` and the `unreachable!` routing arm stay
unreachable), every token-matched accepted response in flight carries
exactly `committed_id + 1`, and a quorum-success step strictly increases
the client's committed id. -/
theorem no_corruption_fault : ∀ σ : Sys, Reachable σ →
    (∀ (sender recipient : Nat) (m : Message) (comp : Computer),
      (sender, recipient, m) ∈ σ.in_flight →
      σ.computers[recipient]? = some comp →
      (comp.receive sender m σ.ctr).isSome = true) ∧
    (∀ (s c t id : Nat) (cl : Client),
      (s, c, Message.Response true t id) ∈ σ.in_flight →
      IsClientAt σ c cl → t = cl.current_uuid → id = cl.last_id + 1) ∧
    (∀ (σ' : Sys) (c t : Nat) (cl cl' : Client), SuccessStep σ σ' c t →
      IsClientAt σ c cl → IsClientAt σ' c cl' → cl.last_id < cl'.last_id) := by
  intro σ hreach
  have hinv := reach_inv hreach
  refine ⟨?_, ?_, ?_⟩
  · intro sender recipient m comp hmem hcomp
    cases m with
    | Request t i =>
      obtain ⟨hrlt, _, _⟩ := hinv.hwfReq _ _ _ _ hmem
      obtain ⟨s, hs⟩ := hinv.hshape recipient hrlt
      rw [hcomp] at hs
      have hcs : comp = Computer.server s := Option.some.inj hs
      subst hcs
      simp [Computer.receive]
    | Response b t i =>
      obtain ⟨_, h10, h25⟩ := hinv.hwfResp _ _ _ _ _ hmem
      obtain ⟨cl, hcl⟩ := hinv.hshapeC recipient h10 h25
      rw [hcomp] at hcl
      have hcc : comp = Computer.client cl := Option.some.inj hcl
      subst hcc
      have htot := client_receive_total cl sender b t i σ.ctr
        (fun hb htc => by
          subst hb
          exact hinv.hrespOk recipient cl sender t i
            (by rw [IsClientAt, ← hcl, hcomp]) hmem htc)
      show ((cl.receive sender b t i σ.ctr).map fun r =>
        ((Computer.client r.1 : Computer), r.2)).isSome = true
      rw [Option.isSome_map']
      exact htot
  · exact fun s c t id cl hmem hcl ht => hinv.hrespOk c cl s t id hcl hmem ht
  · intro σ' c t cl cl' hss hcl hcl'
    obtain ⟨rest, s, id, cl₀, hpop, hcl₀, ht₀, hid, hth, hcl₀'⟩ :=
      successStep_elim hinv hss
    have h1 : cl₀ = cl := isClientAt_unique hcl₀ hcl
    subst h1
    have h2 : cl' = ⟨id, σ.ctr, cl₀.current_responses ++ [TallyEntry.ok id],
        cl₀.resp_from ++ [s]⟩ := isClientAt_unique hcl' hcl₀'
    have h3 : cl'.last_id = id := by rw [h2]
    omega

theorem no_corruption_fault_witness :
    ((Computer.server ⟨0⟩).receive 24 (Message.Request 15 1)
      (wit 11).ctr).isSome = true ∧
    (1 : Nat) = 0 + 1 ∧ (0 : Nat) < 1 := by
  obtain ⟨h1, h2, h3⟩ := no_corruption_fault (wit 11) reach_wit11
  refine ⟨h1 24 0 (Message.Request 15 1) (Computer.server ⟨0⟩)
      (by decide) (by decide), ?_, ?_⟩
  · exact h2 4 24 15 1
      ⟨0, 15, [.ok 1, .ok 1, .ok 1, .ok 1, .ok 1], [9, 8, 7, 6, 5]⟩
      (by decide) (by decide) (by decide)
  · exact h3 (wit 12) 24 15
      ⟨0, 15, [.ok 1, .ok 1, .ok 1, .ok 1, .ok 1], [9, 8, 7, 6, 5]⟩
      ⟨1, 27, [.ok 1, .ok 1, .ok 1, .ok 1, .ok 1, .ok 1], [9, 8, 7, 6, 5, 4]⟩
      succ_wit11 (by decide) (by decide)

/-- C1 (confirmed): whenever a reachable client commits via the success
path, the tally of the concluded round holds accepted-true responses
from strictly more than `N_SERVERS / 2` *distinct* servers (the
simulator never duplicates a message and each round sends one request
per server, so tallied senders are pairwise distinct). -/
theorem quorum_safety_commit : ∀ (σ σ' : Sys) (c t : Nat), Reachable σ →
    SuccessStep σ σ' c t → ∀ cl' : Client, IsClientAt σ' c cl' →
    N_SERVERS / 2 < ((okSenders cl').dedup).length := by
  intro σ σ' c t hreach hss cl'' hcl''
  have hinv := reach_inv hreach
  obtain ⟨rest, s, id, cl, hpop, hcl, ht, hid, hth, hcl'⟩ :=
    successStep_elim hinv hss
  have heq : cl'' = ⟨id, σ.ctr, cl.current_responses ++ [TallyEntry.ok id],
      cl.resp_from ++ [s]⟩ := isClientAt_unique hcl'' hcl'
  have hinv' := step_inv hss.1 hinv
  have hnd : cl''.resp_from.Nodup := hinv'.hnodup c cl'' hcl''
  have hlen : cl''.resp_from.length = cl''.current_responses.length :=
    hinv'.hlenEq c cl'' hcl''
  have hndok : (okSenders cl'').Nodup :=
    List.Sublist.nodup
      (okSenders_sublist_aux cl''.resp_from cl''.current_responses) hnd
  rw [List.dedup_eq_self.mpr hndok, okSenders_length cl'' hlen, heq]
  exact hth

theorem quorum_safety_commit_witness :
    N_SERVERS / 2 <
      ((okSenders ⟨1, 27, [.ok 1, .ok 1, .ok 1, .ok 1, .ok 1, .ok 1],
        [9, 8, 7, 6, 5, 4]⟩).dedup).length :=
  quorum_safety_commit (wit 11) (wit 12) 24 15 reach_wit11 succ_wit11
    ⟨1, 27, [.ok 1, .ok 1, .ok 1, .ok 1, .ok 1, .ok 1], [9, 8, 7, 6, 5, 4]⟩
    (by decide)

/-- C8 (confirmed): a round's success transition happens at most once:
the quorum-success step replaces the client's active token, and at every
later reachable state the client's active token differs from the
concluded round's token, so every remaining response of that round is
inert (by the stale-token no-op) and no second success notification for
it can be emitted. -/
theorem no_double_commit : ∀ (σ σ' σ'' : Sys) (c t : Nat), Reachable σ →
    SuccessStep σ σ' c t → Steps σ' σ'' → ∀ cl'' : Client,
    IsClientAt σ'' c cl'' → cl''.current_uuid ≠ t := by
  intro σ σ' σ'' c t hreach hss hsteps cl'' hcl''
  have hinv := reach_inv hreach
  obtain ⟨rest, s, id, cl, hpop, hcl, ht, hid, hth, hcl'⟩ :=
    successStep_elim hinv hss
  have hinv' := step_inv hss.1 hinv
  have htlt : t < σ.ctr := by
    rw [← ht]
    exact hinv.huuid c cl hcl
  obtain ⟨cl₂, hcl₂, hle⟩ := client_persist_mono hsteps hinv' hcl'
  have h2 : cl₂ = cl'' := isClientAt_unique hcl₂ hcl''
  subst h2
  have : σ.ctr ≤ cl₂.current_uuid := hle
  omega

theorem no_double_commit_witness :
    (Client.mk 1 27 [.ok 1, .ok 1, .ok 1, .ok 1, .ok 1, .ok 1]
      [9, 8, 7, 6, 5, 4]).current_uuid ≠ 15 :=
  no_double_commit (wit 11) (wit 12) (wit 12) 24 15 reach_wit11 succ_wit11
    Relation.ReflTransGen.refl
    ⟨1, 27, [.ok 1, .ok 1, .ok 1, .ok 1, .ok 1, .ok 1], [9, 8, 7, 6, 5, 4]⟩
    (by decide)

/-- C10 (confirmed): a client's committed id strictly increases on every
concluded round, failure included: a token-matched rejection in flight
always carries a ceiling of at least `committed_id + 1` (a server only
rejects with `max_id` at least the proposed id, and `committed_id` is
fixed while the round's token is live), so any delivery step that
changes a client's committed id — the id announced in the round's
SUCCESS or FAILURE notification — strictly increases it. -/
theorem committed_id_strict_increase : ∀ σ : Sys, Reachable σ →
    (∀ (s c t id : Nat) (cl : Client),
      (s, c, Message.Response false t id) ∈ σ.in_flight →
      IsClientAt σ c cl → t = cl.current_uuid → cl.last_id + 1 ≤ id) ∧
    (∀ (σ' : Sys) (c : Nat) (cl cl' : Client), Step σ σ' →
      IsClientAt σ c cl → IsClientAt σ' c cl' →
      cl.last_id ≠ cl'.last_id → cl.last_id < cl'.last_id) := by
  intro σ hreach
  have hinv := reach_inv hreach
  refine ⟨fun s c t id cl hmem hcl ht => hinv.hrespErr c cl s t id hcl hmem ht, ?_⟩
  intro σ' c cl cl' hstep hcl hcl' hne
  cases hstep with
  | deliver rest sender recipient message comp comp' outbound drops q'
      hpop hcomp hrecv hperm =>
    by_cases hrc : recipient = c
    · subst hrc
      have hcompeq : comp = Computer.client cl := by
        rw [IsClientAt] at hcl
        rw [hcl] at hcomp
        exact (Option.some.inj hcomp).symm
      subst hcompeq
      obtain ⟨b, uuid, rid, cl₂, rfl, hcr, hcomp'⟩ := receive_client_some hrecv
      subst hcomp'
      have hlt : recipient < σ.computers.length := by
        rw [hinv.hlen]
        exact (client_idx_range hinv hcl).2
      have hcl₂at : IsClientAt ⟨σ.computers.set recipient (Computer.client cl₂),
          q', σ.ctr + 1⟩ recipient cl₂ := (isClientAt_set_self hlt).mpr rfl
      have hcl'eq : cl' = cl₂ := isClientAt_unique hcl' hcl₂at
      subst hcl'eq
      have hE : (sender, recipient, Message.Response b uuid rid) ∈ σ.in_flight := by
        rw [hpop]
        exact List.mem_append_right _ (by simp)
      rcases client_receive_cases hcr with ⟨_, hcl2, _⟩ |
        ⟨ht, hb, hid, ⟨_, hcl2, _⟩ | ⟨_, hcl2, _⟩⟩ |
        ⟨ht, hb, ⟨_, hcl2, _⟩ | ⟨_, hcl2, _⟩⟩
      · rw [hcl2] at hne
        exact absurd rfl hne
      · have : cl'.last_id = rid := by rw [hcl2]
        omega
      · rw [hcl2] at hne
        exact absurd rfl hne
      · subst hb
        have hErr := hinv.hrespErr recipient cl sender uuid rid hcl hE ht
        have : cl'.last_id = rid := by rw [hcl2]
        omega
      · rw [hcl2] at hne
        exact absurd rfl hne
    · have hcl'' : IsClientAt ⟨σ.computers.set recipient comp', q', σ.ctr + 1⟩
          c cl := (isClientAt_set_ne hrc).mpr hcl
      have : cl' = cl := isClientAt_unique hcl' hcl''
      rw [this] at hne
      exact absurd rfl hne

theorem committed_id_strict_increase_witness :
    (0 : Nat) + 1 ≤ 1 ∧ (0 : Nat) < 1 := by
  constructor
  · exact (committed_id_strict_increase (wit 21) reach_wit21).1 9 23 14 1
      ⟨0, 14, [], []⟩ (by decide) (by decide) (by decide)
  · exact (committed_id_strict_increase (wit 11) reach_wit11).2 (wit 12) 24
      ⟨0, 15, [.ok 1, .ok 1, .ok 1, .ok 1, .ok 1], [9, 8, 7, 6, 5]⟩
      ⟨1, 27, [.ok 1, .ok 1, .ok 1, .ok 1, .ok 1, .ok 1], [9, 8, 7, 6, 5, 4]⟩
      step_wit11 (by decide) (by decide) (by decide)

end IdGen
